import Mathlib

/-!
Verification of the markdown ↔ JSON quiz converter (`src/parsers/md.py`).

Strings are modelled as lists of characters (`Str`); Python's `str` methods
used by the source (`split`, `rstrip`, `strip`, `startswith`, slicing,
`'\n'.join`) are modelled by executable functions below.  Fallible Python
code (`sys.exit`, `IndexError` from `s[0]` on an empty string or from
`tag_pair[1]` on a one-element list, `ZeroDivisionError` from `1 / 0`) is
modelled with `Except PyError`.  Floating point grades are modelled as exact
rationals.  `re.sub(r'\n+', '\n', s)` is modelled by `collapseNl`.
Python dicts (the `metadata` field) are modelled as insertion-ordered
association lists with unique keys.
-/

set_option maxRecDepth 20000

/-- Characters of a Python string. -/
abbrev Str := List Char

/-- Shorthand turning a Lean string literal into its character list. -/
def str (s : String) : Str := s.data

/-- The newline character. -/
def nl : Char := '\n'

/-- Errors a call into the converter can signal: `sys.exit(msg)` from the
validator, `IndexError` from indexing an empty string or a too-short list,
and `ZeroDivisionError` from the grade computation. -/
inductive PyError where
  | sysExit (msg : Str)
  | indexError
  | zeroDivisionError
deriving DecidableEq

/-- Answer record: `{"statement": ..., "correct": ..., "grade": ...}`. -/
structure Answer where
  statement : Str
  correct : Bool
  grade : ℚ
deriving DecidableEq

/-- Question record, the dictionary built by `md_to_json`.  `metadata` is the
Python dict modelled as an insertion-ordered association list. -/
structure Question where
  name : Str
  statement : Str
  feedback : Str
  metadata : List (Str × List Str)
  answers : List Answer
  correct_answers_no : Nat
deriving DecidableEq

/-- Fuel-driven worker for `splitSub` (structural recursion so that concrete
inputs evaluate inside the kernel). -/
def splitSubF (sep : Str) : Nat → Str → List Str
  | 0, s => [s]
  | _ + 1, [] => [[]]
  | fuel + 1, c :: rest =>
    if sep ≠ [] ∧ sep.isPrefixOf (c :: rest) then
      [] :: splitSubF sep fuel ((c :: rest).drop sep.length)
    else
      match splitSubF sep fuel rest with
      | [] => [[c]]
      | x :: xs => (c :: x) :: xs

/-- Python `s.split(sep)` for a nonempty separator: split on each
non-overlapping occurrence of `sep`, scanning left to right. -/
def splitSub (sep s : Str) : List Str := splitSubF sep s.length s

/-- Whether `sep` occurs as a contiguous substring of `s`. -/
def hasSub (sep : Str) : Str → Bool
  | [] => sep.isEmpty
  | c :: rest => sep.isPrefixOf (c :: rest) || hasSub sep rest

/-- Python `'\n'.join` / the textual reassembly of split pieces. -/
def joinSep (sep : Str) : List Str → Str
  | [] => []
  | [x] => x
  | x :: y :: xs => x ++ sep ++ joinSep sep (y :: xs)

/-- The whitespace characters stripped by Python's default `str.rstrip()`
(ASCII fragment; the source only ever produces ASCII whitespace). -/
def pyIsSpace (c : Char) : Bool :=
  c = ' ' || c = '\t' || c = '\n' || c = '\r' || c = '\x0b' || c = '\x0c'

/-- Python `s.rstrip()`. -/
def rstripWs (s : Str) : Str := (s.reverse.dropWhile pyIsSpace).reverse

/-- Python `s.rstrip('\n')`. -/
def rstripNl (s : Str) : Str := (s.reverse.dropWhile (· = nl)).reverse

/-- Python `s.strip('\n')`. -/
def stripNl (s : Str) : Str :=
  ((s.dropWhile (· = nl)).reverse.dropWhile (· = nl)).reverse

/-- Python `re.sub(r'\n+', '\n', s)`: collapse each run of newlines to one. -/
def collapseNl : Str → Str
  | [] => []
  | [c] => [c]
  | a :: b :: rest =>
    if a = nl ∧ b = nl then collapseNl (b :: rest)
    else a :: collapseNl (b :: rest)

/-- The rational `1 / n` written as a reduced fraction, so that grades of
concretely parsed questions evaluate inside the kernel (`Rat` division would
normalize through `Nat.gcd`, which the kernel cannot unfold).  The `0` branch
is dead code: the parser raises `ZeroDivisionError` before dividing when the
correct-answer count is `0`.  `invRat_eq_one_div` below identifies it with
`1 / (n : Rat)`. -/
def invRat : Nat → ℚ
  | 0 => 0
  | n + 1 => ⟨1, n + 1, Nat.succ_ne_zero n, Nat.coprime_one_left _⟩

/-- The line-ending normalization performed at the top of `md_to_json`:
`str(md_q).rstrip()`, then `re.sub(r'\n+', '\n', ...)`, then `.strip('\n')`. -/
def normalizeMd (s : Str) : Str := stripNl (collapseNl (rstripWs s))

/-- `md_q.split('\n')[0]` — the first line of a block (`split` never returns
an empty list, so the Python indexing cannot fail). -/
def firstLine (s : Str) : Str := (splitSub [nl] s).headD []

/-- `get_meta`'s Python return value is either a single string or the whole
list of values, depending on how many values are stored under the key. -/
inductive MetaVal where
  | s (v : Str)
  | l (vs : List Str)
deriving DecidableEq

/-- Lookup in the metadata dict (`key in question_dict["metadata"]` plus
`question_dict["metadata"][key]`). -/
def lookupMeta : List (Str × List Str) → Str → Option (List Str)
  | [], _ => none
  | (k, vs) :: rest, key => if k = key then some vs else lookupMeta rest key

/-- `get_meta(question_dict, key)`: empty string when the key is absent, the
single value when exactly one is stored, the whole value list otherwise.
Side-effect free (a pure function of the record). -/
def get_meta (question_dict : Question) (key : Str) : MetaVal :=
  match lookupMeta question_dict.metadata key with
  | none => .s (str "")
  | some vs => if vs.length = 1 then .s (vs.headD []) else .l vs

/-- Append `value` under `key`, creating the entry (at the end, matching dict
insertion order) when `key` is new — the dict updates of `set_meta`. -/
def addMeta : List (Str × List Str) → Str → Str → List (Str × List Str)
  | [], key, value => [(key, [value])]
  | (k, vs) :: rest, key, value =>
    if k = key then (k, vs ++ [value]) :: rest
    else (k, vs) :: addMeta rest key value

/-- `set_meta(question_dict, key, value)`. -/
def set_meta (question_dict : Question) (key : Str) (value : Str) : Question :=
  { question_dict with metadata := addMeta question_dict.metadata key value }

/-- Python `str(...)` of a character escaped inside a `repr`'d string literal
(printable-ASCII fragment of CPython's rules, which is all the claims use). -/
def pyEsc (quote : Char) (c : Char) : Str :=
  if c = '\\' then ['\\', '\\']
  else if c = quote then ['\\', quote]
  else if c = nl then ['\\', 'n']
  else if c = '\r' then ['\\', 'r']
  else if c = '\t' then ['\\', 't']
  else [c]

/-- CPython `repr` of a string: single quotes unless the string holds a
single quote but no double quote. -/
def pyReprStr (s : Str) : Str :=
  let q : Char := if s.contains '\'' && !s.contains '"' then '"' else '\''
  [q] ++ (s.map (pyEsc q)).flatten ++ [q]

/-- CPython `str`/`repr` of a list of strings: `['a', 'b']`. -/
def pyReprList (vs : List Str) : Str :=
  str "[" ++ joinSep (str ", ") (vs.map pyReprStr) ++ str "]"

/-- Python `str(get_meta(...))` as used when serializing metadata: a single
stored value prints as itself, a value list prints as its `repr`. -/
def metaStr : MetaVal → Str
  | .s v => v
  | .l vs => pyReprList vs

/-- `json_to_md(json_obj)`: serialize one question record back to markdown.
The Python guards `"feedback" in json_q and json_q["feedback"] is not None`
and `"metadata" in json_q` are always true for a record of this shape (the
`feedback` field is a string and `metadata` is present), so both sections are
always emitted.  The loops are the `md_q += ...` accumulations. -/
def json_to_md (json_q : Question) : Str :=
  str "# " ++ json_q.name ++ str "\n\n"
    ++ str "## Question Text\n\n" ++ json_q.statement ++ str "\n\n"
    ++ str "## Question Answers\n\n"
    ++ json_q.answers.foldl (fun md_q answer =>
        md_q ++ (if answer.correct then str "+" else str "-")
          ++ str " " ++ answer.statement ++ str "\n\n") []
    ++ str "## Feedback\n\n" ++ json_q.feedback ++ str "\n\n"
    ++ str "## Metadata\n\n"
    ++ json_q.metadata.foldl (fun md_q p =>
        md_q ++ p.1 ++ str "=" ++ metaStr (get_meta json_q p.1) ++ str "\n\n") []
    ++ str "\n"

/-- `len([ans for ans in q_ans if ans[0] == '+'])`: count the `+`-headed
lines; Python raises `IndexError` at the first empty line. -/
def countPlus : List Str → Except PyError Nat
  | [] => .ok 0
  | [] :: _ => .error .indexError
  | (c :: _) :: rest =>
    match countPlus rest with
    | .error e => .error e
    | .ok n => .ok (if c = '+' then n + 1 else n)

/-- `check_md_q(md_q)`: validate one markdown block, mirroring the three
`sys.exit` calls of the source (title marker, required sections, at least one
correct answer in the first `'Question Answers'`-prefixed field). -/
def check_md_q (md_q : Str) : Except PyError Unit :=
  let q_title := firstLine md_q
  if (str "# ").isPrefixOf q_title = false then
    .error (.sysExit (str "Error: Question starting with \"" ++ q_title
      ++ str "\" does not have a title."))
  else
    let q_title := q_title.drop 2
    let q_fields := splitSub (str "## ") md_q
    let field_names := (q_fields.drop 1).map firstLine
    if str "Question Text" ∉ field_names ∨ str "Question Answers" ∉ field_names then
      .error (.sysExit (str "Error: No question text or answer set for question \""
        ++ q_title ++ str "\"."))
    else
      match q_fields.filter (fun s => (str "Question Answers").isPrefixOf s) with
      | [] => .error .indexError
      | f :: _ =>
        match countPlus ((splitSub [nl] (rstripNl f)).drop 1) with
        | .error e => .error e
        | .ok correct_answers_no =>
          if correct_answers_no < 1 then
            .error (.sysExit (str "Error: No correct answer set for question \""
              ++ q_title ++ str "\"."))
          else .ok ()

/-- The `for ans in q_ans` loop of the `'Question Answers'` branch: append an
answer record for each `+`/`-`-headed line (`ans[2:]` strips the marker and
following character), silently skip any other line, raise `IndexError` on an
empty line.  `n` is `correct_answers_no` and `grade` is `1 / n`. -/
def ansLoop (n : Nat) (grade : ℚ) (acc : List Answer) : List Str → Except PyError (List Answer)
  | [] => .ok acc
  | [] :: _ => .error .indexError
  | (c :: cs) :: rest =>
    if c = '+' then
      ansLoop n grade (acc ++ [⟨(c :: cs).drop 2, true, grade⟩]) rest
    else if c = '-' then
      ansLoop n grade (acc ++ [⟨(c :: cs).drop 2, false, if 1 < n then -grade else 0⟩]) rest
    else
      ansLoop n grade acc rest

/-- The `'Question Answers'` branch of `md_to_json`: store the count of
`+`-headed lines, compute `grade = 1 / correct_answers_no` (ZeroDivisionError
when the count is 0), then run the answer loop. -/
def procAnswers (question : Question) (q_ans : List Str) : Except PyError Question :=
  match countPlus q_ans with
  | .error e => .error e
  | .ok n =>
    if n = 0 then .error .zeroDivisionError
    else
      match ansLoop n (invRat n) question.answers q_ans with
      | .error e => .error e
      | .ok answers => .ok { question with correct_answers_no := n, answers := answers }

/-- The `'Metadata'` branch of `md_to_json`: `tag_pair = meta.split("=")`
then `set_meta(question, tag_pair[0], tag_pair[1])` for each line;
`tag_pair[1]` raises `IndexError` when the line holds no `'='`. -/
def metaLoop (question : Question) : List Str → Except PyError Question
  | [] => .ok question
  | meta :: rest =>
    match splitSub ['='] meta with
    | k :: v :: _ => metaLoop (set_meta question k v) rest
    | _ => .error .indexError

/-- One iteration of the `for field in q_fiels` loop of `md_to_json`,
dispatching on `field.split('\n')[0]`; unknown section names (including the
pre-title chunk `q_fiels[0]`) are ignored. -/
def processField (question : Question) (field : Str) : Except PyError Question :=
  let field_name := firstLine field
  if field_name = str "Question Text" then
    .ok { question with statement := joinSep [nl] ((splitSub [nl] field).drop 1) }
  else if field_name = str "Question Answers" then
    procAnswers question ((splitSub [nl] (rstripNl field)).drop 1)
  else if field_name = str "Feedback" then
    .ok { question with feedback := joinSep [nl] ((splitSub [nl] field).drop 1) }
  else if field_name = str "Metadata" then
    metaLoop question ((splitSub [nl] (rstripNl field)).drop 1)
  else .ok question

/-- The whole `for field in q_fiels` loop. -/
def fieldsLoop (question : Question) : List Str → Except PyError Question
  | [] => .ok question
  | field :: rest =>
    match processField question field with
    | .error e => .error e
    | .ok question' => fieldsLoop question' rest

/-- `md_to_json(md_q)`: normalize line endings, validate, then fold the
section parser over the `'## '`-split fields, starting from the record with
`name` set to the title and every other field at its default. -/
def md_to_json (md_q : Str) : Except PyError Question :=
  let md_copy := normalizeMd md_q
  match check_md_q md_copy with
  | .error e => .error e
  | .ok _ =>
    let q_title := (firstLine md_copy).drop 2
    fieldsLoop
      { name := q_title, statement := [], feedback := [], metadata := []
        answers := [], correct_answers_no := 0 }
      (splitSub (str "## ") md_copy)

/-- `map(md_to_json, question_arr)` with the fail-fast `sys.exit` behavior:
the first invalid block aborts the whole run. -/
def mdBlocksToJson : List Str → Except PyError (List Question)
  | [] => .ok []
  | b :: bs =>
    match md_to_json b with
    | .error e => .error e
    | .ok q =>
      match mdBlocksToJson bs with
      | .error e => .error e
      | .ok qs => .ok (q :: qs)

/-- `quiz_md_to_json(file_content)`: split the document on `"\n\n\n"` and
convert each block in order.  (The Python function renders the result list
as a JSON array string; the list of records is the faithful content.) -/
def quiz_md_to_json (file_content : Str) : Except PyError (List Question) :=
  mdBlocksToJson (splitSub (str "\n\n\n") file_content)

/-- `quiz_json_to_md(json_arr)`: serialize each record in order. -/
def quiz_json_to_md (json_arr : List Question) : List Str :=
  json_arr.map json_to_md

/-! ### Derived definitions used by the specifications -/

/-- The number of answers of a record marked correct. -/
def nCorrect (q : Question) : Nat := (q.answers.filter (fun a => a.correct)).length

/-- The serialized markdown line of one answer: marker, space, statement. -/
def ansLine (a : Answer) : Str :=
  (if a.correct then str "+" else str "-") ++ str " " ++ a.statement

/-- The serialized markdown line of one metadata entry, as emitted by
`json_to_md`'s metadata loop. -/
def metaLine (q : Question) (p : Str × List Str) : Str :=
  p.1 ++ str "=" ++ metaStr (get_meta q p.1)

/-- All serialized metadata lines of a record. -/
def metaLines (q : Question) : List Str := q.metadata.map (metaLine q)

/-- The content lines of `json_to_md q`, in emission order (each is followed
by a blank line in the serialized text). -/
def mdLines (q : Question) : List Str :=
  [str "# " ++ q.name, str "## Question Text", q.statement, str "## Question Answers"]
    ++ q.answers.map ansLine
    ++ [str "## Feedback", q.feedback, str "## Metadata"]
    ++ metaLines q

/-- A metadata mapping populated only through `set_meta` calls, starting from
the empty dict, one call per pair in order. -/
def buildMeta (pairs : List (Str × Str)) : List (Str × List Str) :=
  pairs.foldl (fun m p => addMeta m p.1 p.2) []

/-- Whether an answer-section line starts with `'+'` or `'-'`. -/
def isAnsHead : Str → Bool
  | [] => false
  | c :: _ => c = '+' || c = '-'

/-- The `'## '`-fields of a normalized block whose first line is exactly
`'Question Answers'` — the fields the parsing loop treats as answer sections. -/
def qaFields (blk : Str) : List Str :=
  (splitSub (str "## ") (normalizeMd blk)).filter
    (fun f => firstLine f = str "Question Answers")

/-- The `'## '`-fields of a normalized block whose text merely starts with
`'Question Answers'` — the fields the validator's `startswith` filter sees. -/
def qaHeadFields (blk : Str) : List Str :=
  (splitSub (str "## ") (normalizeMd blk)).filter
    (fun f => (str "Question Answers").isPrefixOf f)

/-- No occurrence of `sep` begins inside `x` when `x` is followed by
`sep ++ r`: the shape hypothesis under which Python's left-to-right `split`
cuts exactly at the boundary. -/
def SepOk (sep x r : Str) : Prop :=
  ∀ x₂, x₂ ≠ [] → x₂ <:+ x → sep.isPrefixOf (x₂ ++ sep ++ r) = false

-- Decidable equality of `Except` results, so that concrete runs of the
-- converter can be checked by `decide`.
deriving instance DecidableEq for Except

/-- The pre-title chunk of the normalized serialization of a record. -/
def mdF0 (q : Question) : Str := str "# " ++ q.name ++ [nl]

/-- The `Question Text` field of the normalized serialization (an empty
statement line vanishes in the newline collapse, hence the conditional). -/
def mdF1 (q : Question) : Str :=
  str "Question Text" ++ [nl] ++ (if q.statement.isEmpty then [] else q.statement ++ [nl])

/-- The `Question Answers` field of the normalized serialization. -/
def mdF2 (q : Question) : Str :=
  str "Question Answers" ++ [nl] ++ joinSep [nl] (q.answers.map ansLine) ++ [nl]

/-- The `Feedback` field of the normalized serialization. -/
def mdF3 (q : Question) : Str :=
  str "Feedback" ++ [nl] ++ (if q.feedback.isEmpty then [] else q.feedback ++ [nl])

/-- The `Metadata` field of the normalized serialization. -/
def mdF4 (q : Question) : Str :=
  str "Metadata" ++ (if (metaLines q).isEmpty then [] else [nl] ++ joinSep [nl] (metaLines q))

/-- The five `'## '`-separated fields of the normalized serialization of a
record: pre-title chunk, Question Text, Question Answers, Feedback, Metadata. -/
def mdFields (q : Question) : List Str :=
  [mdF0 q, mdF1 q, mdF2 q, mdF3 q, mdF4 q]

/-! ### Basic lemmas about the string primitives -/

theorem splitSubF_congr (sep : Str) :
    ∀ m n s, s.length ≤ m → s.length ≤ n → splitSubF sep m s = splitSubF sep n s := by
  intro m
  induction m with
  | zero =>
    intro n s hm _
    have hs : s = [] := List.eq_nil_of_length_eq_zero (Nat.le_zero.mp hm)
    subst hs
    cases n <;> rfl
  | succ m ih =>
    intro n s hm hn
    cases s with
    | nil => cases n <;> rfl
    | cons c rest =>
      cases n with
      | zero => exact absurd hn (by simp)
      | succ n =>
        simp only [splitSubF]
        by_cases hc : sep ≠ [] ∧ sep.isPrefixOf (c :: rest)
        · rw [if_pos hc, if_pos hc]
          have hlen : ((c :: rest).drop sep.length).length ≤ rest.length := by
            have hsep1 : 1 ≤ sep.length := by
              cases sep with
              | nil => exact absurd rfl hc.1
              | cons a t => simp
            simp only [List.length_drop, List.length_cons]
            omega
          rw [ih _ _ (Nat.le_trans hlen (Nat.le_of_succ_le_succ hm))
            (Nat.le_trans hlen (Nat.le_of_succ_le_succ hn))]
        · rw [if_neg hc, if_neg hc]
          rw [ih _ _ (Nat.le_of_succ_le_succ hm) (Nat.le_of_succ_le_succ hn)]

theorem splitSub_nil (sep : Str) : splitSub sep [] = [[]] := rfl

theorem splitSub_cons_pos {sep : Str} (c : Char) (rest : Str) (hsep : sep ≠ [])
    (h : sep.isPrefixOf (c :: rest)) :
    splitSub sep (c :: rest) = [] :: splitSub sep ((c :: rest).drop sep.length) := by
  have hsep1 : 1 ≤ sep.length := by
    cases sep with
    | nil => exact absurd rfl hsep
    | cons a t => simp
  show splitSubF sep (rest.length + 1) (c :: rest) = _
  simp only [splitSubF, if_pos (And.intro hsep h)]
  congr 1
  apply splitSubF_congr
  · simp only [List.length_drop, List.length_cons]; omega
  · exact Nat.le_refl _

theorem splitSub_cons_neg {sep : Str} (c : Char) (rest : Str)
    (h : sep.isPrefixOf (c :: rest) = false) :
    splitSub sep (c :: rest) =
      match splitSub sep rest with
      | [] => [[c]]
      | x :: xs => (c :: x) :: xs := by
  show splitSubF sep (rest.length + 1) (c :: rest) = _
  have hc : ¬ (sep ≠ [] ∧ sep.isPrefixOf (c :: rest)) := by
    intro hc
    rw [hc.2] at h
    exact Bool.noConfusion h
  simp only [splitSubF, if_neg hc]
  rfl

theorem splitSub_ne_nil (sep s : Str) : splitSub sep s ≠ [] := by
  show splitSubF sep s.length s ≠ []
  generalize s.length = fuel
  induction fuel generalizing s with
  | zero => simp [splitSubF]
  | succ fuel ih =>
    cases s with
    | nil => simp [splitSubF]
    | cons c rest =>
      simp only [splitSubF]
      split
      · simp
      · split <;> simp_all

theorem splitSub_single {sep : Str} (hsep : sep ≠ []) {s : Str}
    (h : hasSub sep s = false) : splitSub sep s = [s] := by
  induction s with
  | nil => exact splitSub_nil sep
  | cons c rest ih =>
    simp only [hasSub, Bool.or_eq_false_iff] at h
    rw [splitSub_cons_neg c rest h.1, ih h.2]

theorem hasSub_of_suffix {sep x x₂ : Str} (hpre : sep.isPrefixOf x₂)
    (hsuf : x₂ <:+ x) : hasSub sep x = true := by
  induction x with
  | nil =>
    have hx₂ : x₂ = [] := List.eq_nil_of_suffix_nil hsuf
    subst hx₂
    cases sep with
    | nil => rfl
    | cons a t => exact Bool.noConfusion hpre
  | cons c rest ih =>
    rcases List.suffix_cons_iff.mp hsuf with h | h
    · subst h
      simp [hasSub, hpre]
    · simp [hasSub, ih h]

theorem splitSub_append {sep : Str} (hsep : sep ≠ []) {x r : Str} (h : SepOk sep x r) :
    splitSub sep (x ++ sep ++ r) = x :: splitSub sep r := by
  induction x with
  | nil =>
    cases sep with
    | nil => exact absurd rfl hsep
    | cons a t =>
      simp only [List.nil_append, List.cons_append]
      rw [splitSub_cons_pos a (t ++ r) hsep
        (List.isPrefixOf_iff_prefix.mpr (by simpa using List.prefix_append (a :: t) r))]
      congr 1
      simp only [List.length_cons, List.cons_append, List.drop_succ_cons]
      rw [List.drop_left]
  | cons c x' ih =>
    have hstep : sep.isPrefixOf (c :: (x' ++ sep ++ r)) = false := by
      have := h (c :: x') (by simp) (List.suffix_refl _)
      simpa using this
    have hx' : SepOk sep x' r := by
      intro x₂ hne hsuf
      exact h x₂ hne (hsuf.trans (List.suffix_cons c x'))
    simp only [List.cons_append]
    rw [splitSub_cons_neg c (x' ++ sep ++ r) hstep]
    have := ih hx'
    simp only [List.cons_append] at this ⊢
    rw [this]

theorem getLast?_of_suffix {x x₂ : Str} (hsuf : x₂ <:+ x) (hne : x₂ ≠ []) :
    x.getLast? = x₂.getLast? := by
  obtain ⟨pre, rfl⟩ := hsuf
  exact List.getLast?_append_of_ne_nil pre hne

theorem sepOk_hash {x : Str} (h : hasSub (str "## ") x = false) (r : Str) :
    SepOk (str "## ") x r := by
  have e : str "## " = ['#', '#', ' '] := rfl
  intro x₂ hne hsuf
  rw [e]
  cases x₂ with
  | nil => exact absurd rfl hne
  | cons a t₁ =>
    cases t₁ with
    | nil => simp [List.isPrefixOf]
    | cons b t₂ =>
      cases t₂ with
      | nil => simp [List.isPrefixOf]
      | cons c t =>
        by_contra hp
        rw [Bool.not_eq_false] at hp
        simp only [List.cons_append, List.isPrefixOf, Bool.and_eq_true, beq_iff_eq] at hp
        obtain ⟨ha, hb, hc, -⟩ := hp
        have hpre : (str "## ").isPrefixOf (a :: b :: c :: t) = true := by
          rw [e, ← ha, ← hb, ← hc]
          simp [List.isPrefixOf]
        rw [hasSub_of_suffix hpre hsuf] at h
        exact Bool.noConfusion h

theorem sepOk_nl {x : Str} (h : nl ∉ x) (r : Str) : SepOk [nl] x r := by
  intro x₂ hne hsuf
  cases x₂ with
  | nil => exact absurd rfl hne
  | cons a t =>
    have ha : a ≠ nl := fun e => h (e ▸ hsuf.subset (by simp))
    simp [List.isPrefixOf, Ne.symm ha]

theorem sepOk_nnn {x : Str} (h : hasSub (str "\n\n\n") x = false)
    (hlast : x.getLast? ≠ some nl) (r : Str) : SepOk (str "\n\n\n") x r := by
  have e : str "\n\n\n" = [nl, nl, nl] := rfl
  intro x₂ hne hsuf
  rw [e]
  cases x₂ with
  | nil => exact absurd rfl hne
  | cons a t₁ =>
    cases t₁ with
    | nil =>
      have : x.getLast? = some a := by rw [getLast?_of_suffix hsuf hne]; rfl
      have ha : a ≠ nl := fun hyp => hlast (by rw [this, hyp])
      simp [List.isPrefixOf, Ne.symm ha]
    | cons b t₂ =>
      cases t₂ with
      | nil =>
        have : x.getLast? = some b := by rw [getLast?_of_suffix hsuf hne]; rfl
        have hb : b ≠ nl := fun hyp => hlast (by rw [this, hyp])
        simp [List.isPrefixOf, Ne.symm hb]
      | cons c t =>
        by_contra hp
        rw [Bool.not_eq_false] at hp
        simp only [List.cons_append, List.isPrefixOf, Bool.and_eq_true, beq_iff_eq] at hp
        obtain ⟨ha, hb, hc, -⟩ := hp
        have hpre : (str "\n\n\n").isPrefixOf (a :: b :: c :: t) = true := by
          rw [e, ← ha, ← hb, ← hc]
          simp [List.isPrefixOf]
        rw [hasSub_of_suffix hpre hsuf] at h
        exact Bool.noConfusion h

theorem joinSep_cons (sep : Str) (x : Str) {xs : List Str} (hxs : xs ≠ []) :
    joinSep sep (x :: xs) = x ++ sep ++ joinSep sep xs := by
  cases xs with
  | nil => exact absurd rfl hxs
  | cons y ys => rfl

theorem splitSub_joinSep_hash {parts : List Str}
    (h : ∀ p ∈ parts, hasSub (str "## ") p = false) (hne : parts ≠ []) :
    splitSub (str "## ") (joinSep (str "## ") parts) = parts := by
  induction parts with
  | nil => exact absurd rfl hne
  | cons p rest ih =>
    cases rest with
    | nil => exact splitSub_single (by simp [str]) (h p (by simp))
    | cons q rest' =>
      rw [joinSep_cons _ _ (by simp)]
      rw [splitSub_append (by simp [str]) (sepOk_hash (h p (by simp)) _)]
      rw [ih (fun p hp => h p (by simp [hp])) (by simp)]

theorem hasSub_nl_eq_false {p : Str} (h : nl ∉ p) : hasSub [nl] p = false := by
  induction p with
  | nil => rfl
  | cons c cs ih =>
    simp only [List.mem_cons, not_or] at h
    simp only [hasSub, Bool.or_eq_false_iff, List.isPrefixOf, List.isPrefixOf_nil_left,
      Bool.and_true]
    exact ⟨by simp only [beq_eq_false_iff_ne]; exact h.1, ih h.2⟩

theorem splitSub_joinSep_nl {parts : List Str}
    (h : ∀ p ∈ parts, nl ∉ p) (hne : parts ≠ []) :
    splitSub [nl] (joinSep [nl] parts) = parts := by
  induction parts with
  | nil => exact absurd rfl hne
  | cons p rest ih =>
    cases rest with
    | nil => exact splitSub_single (by simp) (hasSub_nl_eq_false (h p (by simp)))
    | cons q rest' =>
      rw [joinSep_cons _ _ (by simp)]
      rw [splitSub_append (by simp) (sepOk_nl (h p (by simp)) _)]
      rw [ih (fun p hp => h p (by simp [hp])) (by simp)]

theorem splitSub_joinSep_nnn {parts : List Str}
    (h : ∀ p ∈ parts, hasSub (str "\n\n\n") p = false ∧ p.getLast? ≠ some nl)
    (hne : parts ≠ []) :
    splitSub (str "\n\n\n") (joinSep (str "\n\n\n") parts) = parts := by
  induction parts with
  | nil => exact absurd rfl hne
  | cons p rest ih =>
    cases rest with
    | nil => exact splitSub_single (by simp [str]) (h p (by simp)).1
    | cons q rest' =>
      rw [joinSep_cons _ _ (by simp)]
      rw [splitSub_append (by simp [str]) (sepOk_nnn (h p (by simp)).1 (h p (by simp)).2 _)]
      rw [ih (fun p hp => h p (by simp [hp])) (by simp)]

/-! ### Lemmas about normalization (`rstrip`, newline collapsing, `strip`) -/

theorem firstLine_append {x y : Str} (hx : nl ∉ x) : firstLine (x ++ nl :: y) = x := by
  have h : splitSub [nl] (x ++ [nl] ++ y) = x :: splitSub [nl] y :=
    splitSub_append (by simp) (sepOk_nl hx y)
  unfold firstLine
  rw [show x ++ nl :: y = x ++ [nl] ++ y by simp, h]
  rfl

theorem firstLine_no_nl {x : Str} (hx : nl ∉ x) : firstLine x = x := by
  unfold firstLine
  rw [splitSub_single (by simp) (hasSub_nl_eq_false hx)]
  rfl

theorem dropWhile_append_of_all {p : Char → Bool} {l₁ : Str} (h : ∀ c ∈ l₁, p c = true)
    (l₂ : Str) : (l₁ ++ l₂).dropWhile p = l₂.dropWhile p := by
  induction l₁ with
  | nil => rfl
  | cons c cs ih =>
    simp only [List.cons_append, List.dropWhile_cons, h c (by simp)]
    exact ih (fun d hd => h d (by simp [hd]))

theorem dropWhile_id_of_head {p : Char → Bool} {l : Str}
    (h : ∀ c, l.head? = some c → p c = false) : l.dropWhile p = l := by
  cases l with
  | nil => rfl
  | cons c cs => simp [List.dropWhile_cons, h c rfl]

theorem rstripWs_append_sp {x sp : Str} (hsp : ∀ c ∈ sp, pyIsSpace c = true) :
    rstripWs (x ++ sp) = rstripWs x := by
  unfold rstripWs
  rw [List.reverse_append, dropWhile_append_of_all (fun c hc => hsp c (by simpa using hc))]

theorem rstripWs_id {x : Str} (hlast : ∀ c, x.getLast? = some c → pyIsSpace c = false) :
    rstripWs x = x := by
  unfold rstripWs
  rw [dropWhile_id_of_head (fun c hc => hlast c (by rwa [← List.head?_reverse]))]
  exact List.reverse_reverse x

theorem head?_reverse_ne_nl {x : Str} (hlast : ∀ c, x.getLast? = some c → c ≠ nl) :
    ∀ c, x.reverse.head? = some c → (c = nl : Bool) = false := by
  intro c hc
  simp only [decide_eq_false_iff_not]
  exact hlast c (by rwa [← List.head?_reverse])

theorem rstripNl_id {x : Str} (hlast : ∀ c, x.getLast? = some c → c ≠ nl) :
    rstripNl x = x := by
  unfold rstripNl
  rw [dropWhile_id_of_head (head?_reverse_ne_nl hlast)]
  exact List.reverse_reverse x

theorem rstripNl_append_nl {x : Str} (hlast : ∀ c, x.getLast? = some c → c ≠ nl) :
    rstripNl (x ++ [nl]) = x := by
  unfold rstripNl
  rw [List.reverse_append]
  have h1 : (([nl] : Str).reverse ++ x.reverse).dropWhile (fun c => c = nl) =
      x.reverse.dropWhile (fun c => c = nl) :=
    dropWhile_append_of_all (by simp) _
  rw [h1, dropWhile_id_of_head (head?_reverse_ne_nl hlast)]
  exact List.reverse_reverse x

theorem stripNl_id {x : Str} (hhead : ∀ c, x.head? = some c → c ≠ nl)
    (hlast : ∀ c, x.getLast? = some c → c ≠ nl) : stripNl x = x := by
  unfold stripNl
  have h1 : x.dropWhile (fun c => c = nl) = x :=
    dropWhile_id_of_head (fun c hc => by
      simp only [decide_eq_false_iff_not]
      exact hhead c hc)
  rw [h1, dropWhile_id_of_head (head?_reverse_ne_nl hlast)]
  exact List.reverse_reverse x

theorem collapseNl_cons_cons (xs : Str) : collapseNl (nl :: nl :: xs) = collapseNl (nl :: xs) := by
  simp [collapseNl]

theorem collapseNl_cons_ne {a b : Char} (h : ¬(a = nl ∧ b = nl)) (xs : Str) :
    collapseNl (a :: b :: xs) = a :: collapseNl (b :: xs) := by
  simp only [collapseNl, if_neg h]

theorem collapseNl_append {l : Str} (hl : nl ∉ l) (xs : Str) :
    collapseNl (l ++ xs) = l ++ collapseNl xs := by
  induction l with
  | nil => rfl
  | cons c cs ih =>
    simp only [List.mem_cons, not_or] at hl
    cases h2 : cs ++ xs with
    | nil =>
      rcases List.append_eq_nil.mp h2 with ⟨rfl, rfl⟩
      rfl
    | cons d rest =>
      have : collapseNl (c :: (cs ++ xs)) = c :: collapseNl (cs ++ xs) := by
        rw [h2]
        exact collapseNl_cons_ne (fun hc => hl.1 hc.1.symm) rest
      simp only [List.cons_append]
      rw [this, ih hl.2]

theorem collapseNl_id {l : Str} (hl : nl ∉ l) : collapseNl l = l := by
  have h := collapseNl_append hl []
  rw [List.append_nil] at h
  exact h.trans (by simp [collapseNl])

theorem flatten_map_nlnl_ne_nil {rest : List Str} (h : rest ≠ []) :
    (rest.map (fun l => nl :: nl :: l)).flatten ≠ [] := by
  cases rest with
  | nil => exact absurd rfl h
  | cons m rest' => simp

theorem getLast?_tailJoin :
    ∀ (rest : List Str) (lst : Str), rest.getLast? = some lst → lst ≠ [] →
      ((rest.map (fun l => nl :: nl :: l)).flatten).getLast? = lst.getLast? := by
  intro rest
  induction rest with
  | nil => intro lst h; exact absurd h (by simp)
  | cons m rest' ih =>
    intro lst h hne
    cases rest' with
    | nil =>
      simp only [List.getLast?_singleton, Option.some.injEq] at h
      subst h
      show ((nl :: nl :: m) ++ []).getLast? = m.getLast?
      rw [List.append_nil]
      exact List.getLast?_append_of_ne_nil [nl, nl] hne
    | cons m' rest'' =>
      rw [List.getLast?_cons_cons] at h
      show ((nl :: nl :: m) ++ ((m' :: rest'').map (fun l => nl :: nl :: l)).flatten).getLast? = _
      rw [List.getLast?_append_of_ne_nil _ (flatten_map_nlnl_ne_nil (by simp))]
      exact ih lst h hne

theorem collapseNl_tailJoin :
    ∀ (rest : List Str), (∀ l ∈ rest, nl ∉ l) → rest.getLast? ≠ some [] →
      collapseNl ((rest.map (fun l => nl :: nl :: l)).flatten) =
        ((rest.filter (fun l => !l.isEmpty)).map (fun l => nl :: l)).flatten := by
  intro rest
  induction rest with
  | nil => intro _ _; rfl
  | cons l rest' ih =>
    intro hnl hlast
    show collapseNl ((nl :: nl :: l) ++ (rest'.map (fun l => nl :: nl :: l)).flatten) = _
    cases l with
    | nil =>
      cases rest' with
      | nil => exact absurd (List.getLast?_singleton []) hlast
      | cons m rest'' =>
        show collapseNl (nl :: nl :: ((m :: rest'').map (fun l => nl :: nl :: l)).flatten) = _
        rw [collapseNl_cons_cons]
        show collapseNl (nl :: ((nl :: nl :: m) ++ (rest''.map (fun l => nl :: nl :: l)).flatten)) = _
        rw [show (nl :: ((nl :: nl :: m) ++ (rest''.map (fun l => nl :: nl :: l)).flatten)) =
          nl :: nl :: (nl :: m ++ (rest''.map (fun l => nl :: nl :: l)).flatten) by simp]
        rw [collapseNl_cons_cons]
        have := ih (fun a ha => hnl a (by simp [ha])) (by rwa [List.getLast?_cons_cons] at hlast)
        simpa using this
    | cons c l' =>
      have hcnl : c ≠ nl := by
        have := hnl (c :: l') (by simp)
        simp only [List.mem_cons, not_or] at this
        exact fun e => this.1 e.symm
      rw [show ((nl :: nl :: c :: l') ++ (rest'.map (fun l => nl :: nl :: l)).flatten) =
        nl :: nl :: (c :: (l' ++ (rest'.map (fun l => nl :: nl :: l)).flatten)) by simp]
      rw [collapseNl_cons_cons]
      rw [collapseNl_cons_ne (fun h => hcnl h.2) _]
      rw [show (c :: (l' ++ (rest'.map (fun l => nl :: nl :: l)).flatten)) =
        (c :: l') ++ (rest'.map (fun l => nl :: nl :: l)).flatten by simp]
      rw [collapseNl_append (hnl (c :: l') (by simp))]
      cases rest' with
      | nil => simp [collapseNl]
      | cons m rest'' =>
        rw [ih (fun a ha => hnl a (by simp [ha])) (by rwa [List.getLast?_cons_cons] at hlast)]
        simp

theorem flatten_shift : ∀ (rest : List Str) (l₀ : Str),
    ((l₀ :: rest).map (fun l => l ++ [nl, nl])).flatten =
      l₀ ++ ((rest.map (fun l => nl :: nl :: l)).flatten ++ [nl, nl]) := by
  intro rest
  induction rest with
  | nil => intro l₀; simp
  | cons m rest' ih =>
    intro l₀
    show (l₀ ++ [nl, nl]) ++ ((m :: rest').map (fun l => l ++ [nl, nl])).flatten = _
    rw [ih m]
    simp

theorem body_last_not_space {l₀ : Str} {rest : List Str}
    (hlastne : ∀ l, (l₀ :: rest).getLast? = some l → l ≠ [])
    (hlastws : ∀ l c, (l₀ :: rest).getLast? = some l → l.getLast? = some c →
      pyIsSpace c = false) :
    ∀ c, (l₀ ++ (rest.map (fun l => nl :: nl :: l)).flatten).getLast? = some c →
      pyIsSpace c = false := by
  intro c hc
  cases rest with
  | nil =>
    simp only [List.map_nil, List.flatten_nil, List.append_nil] at hc
    exact hlastws l₀ c (List.getLast?_singleton l₀) hc
  | cons m rest' =>
    rw [List.getLast?_append_of_ne_nil _ (flatten_map_nlnl_ne_nil (by simp))] at hc
    have hex := List.getLast?_eq_getLast_of_ne_nil (l := m :: rest') (by simp)
    set lst := (m :: rest').getLast (by simp) with hlstdef
    have hlst : (m :: rest').getLast? = some lst := hex
    have hlstne : lst ≠ [] := hlastne lst (by rw [List.getLast?_cons_cons]; exact hlst)
    rw [getLast?_tailJoin (m :: rest') lst hlst hlstne] at hc
    exact hlastws lst c (by rw [List.getLast?_cons_cons]; exact hlst) hc

theorem flatten_map_nl_ne_nil {parts : List Str} (h : parts ≠ []) :
    (parts.map (fun l => nl :: l)).flatten ≠ [] := by
  cases parts with
  | nil => exact absurd rfl h
  | cons m rest' => simp

theorem getLast?_nlJoin :
    ∀ (parts : List Str) (lst : Str), parts.getLast? = some lst → lst ≠ [] →
      ((parts.map (fun l => nl :: l)).flatten).getLast? = lst.getLast? := by
  intro parts
  induction parts with
  | nil => intro lst h; exact absurd h (by simp)
  | cons m parts' ih =>
    intro lst h hne
    cases parts' with
    | nil =>
      simp only [List.getLast?_singleton, Option.some.injEq] at h
      subst h
      show ((nl :: m) ++ []).getLast? = m.getLast?
      rw [List.append_nil]
      exact List.getLast?_append_of_ne_nil [nl] hne
    | cons m' parts'' =>
      rw [List.getLast?_cons_cons] at h
      show ((nl :: m) ++ ((m' :: parts'').map (fun l => nl :: l)).flatten).getLast? = _
      rw [List.getLast?_append_of_ne_nil _ (flatten_map_nl_ne_nil (by simp))]
      exact ih lst h hne

theorem getLast?_cons_of_ne_nil {t : List Str} (a : Str) (h : t ≠ []) :
    (a :: t).getLast? = t.getLast? := by
  cases t with
  | nil => exact absurd rfl h
  | cons b t' => exact List.getLast?_cons_cons

theorem getLast?_filter_ne :
    ∀ (rest : List Str) (lst : Str), rest.getLast? = some lst → lst ≠ [] →
      (rest.filter (fun l => !l.isEmpty)).getLast? = some lst := by
  intro rest
  induction rest with
  | nil => intro lst h; exact absurd h (by simp)
  | cons m rest' ih =>
    intro lst h hne
    cases rest' with
    | nil =>
      simp only [List.getLast?_singleton, Option.some.injEq] at h
      subst h
      simp [List.filter_cons, List.isEmpty_iff, hne]
    | cons m' rest'' =>
      rw [List.getLast?_cons_cons] at h
      have htail := ih lst h hne
      rw [List.filter_cons]
      split
      · rw [getLast?_cons_of_ne_nil m (fun e => by rw [e] at htail; exact Option.noConfusion htail)]
        exact htail
      · exact htail

theorem joinSep_nl_eq_flat :
    ∀ (parts : List Str) (p : Str),
      joinSep [nl] (p :: parts) = p ++ (parts.map (fun l => nl :: l)).flatten := by
  intro parts
  induction parts with
  | nil => intro p; simp [joinSep]
  | cons q parts' ih =>
    intro p
    rw [joinSep_cons _ _ (by simp), ih q]
    simp

theorem njoin_last_not_nl {l₀ : Str} {rest : List Str}
    (hlastne : ∀ l, (l₀ :: rest).getLast? = some l → l ≠ [])
    (hlastws : ∀ l c, (l₀ :: rest).getLast? = some l → l.getLast? = some c →
      pyIsSpace c = false) :
    ∀ c, (l₀ ++ ((rest.filter (fun l => !l.isEmpty)).map (fun l => nl :: l)).flatten).getLast? =
      some c → c ≠ nl := by
  have hns : ∀ c, pyIsSpace c = false → c ≠ nl := by
    intro c h e
    rw [e] at h
    exact absurd h (by simp [pyIsSpace, nl])
  intro c hc
  cases hrest : rest with
  | nil =>
    subst hrest
    simp only [List.filter_nil, List.map_nil, List.flatten_nil, List.append_nil] at hc
    exact hns c (hlastws l₀ c (List.getLast?_singleton l₀) hc)
  | cons m rest' =>
    subst hrest
    have hex := List.getLast?_eq_getLast_of_ne_nil (l := m :: rest') (by simp)
    set lst := (m :: rest').getLast (by simp) with hlstdef
    have hlst : (m :: rest').getLast? = some lst := hex
    have hlstne : lst ≠ [] := hlastne lst (by rw [List.getLast?_cons_cons]; exact hlst)
    have hfil : ((m :: rest').filter (fun l => !l.isEmpty)).getLast? = some lst :=
      getLast?_filter_ne _ lst hlst hlstne
    have hfne : (m :: rest').filter (fun l => !l.isEmpty) ≠ [] := by
      intro e
      rw [e] at hfil
      exact Option.noConfusion hfil
    rw [List.getLast?_append_of_ne_nil _ (flatten_map_nl_ne_nil hfne)] at hc
    rw [getLast?_nlJoin _ lst hfil hlstne] at hc
    exact hns c (hlastws lst c (by rw [List.getLast?_cons_cons]; exact hlst) hc)

theorem normalizeMd_doc {l₀ : Str} {rest : List Str}
    (h₀ : l₀ ≠ []) (hnl : ∀ l ∈ (l₀ :: rest), nl ∉ l)
    (hlastne : ∀ l, (l₀ :: rest).getLast? = some l → l ≠ [])
    (hlastws : ∀ l c, (l₀ :: rest).getLast? = some l → l.getLast? = some c →
      pyIsSpace c = false) :
    normalizeMd ((((l₀ :: rest).map (fun l => l ++ [nl, nl])).flatten) ++ [nl]) =
      joinSep [nl] ((l₀ :: rest).filter (fun l => !l.isEmpty)) := by
  unfold normalizeMd
  rw [flatten_shift]
  rw [show (l₀ ++ ((rest.map (fun l => nl :: nl :: l)).flatten ++ [nl, nl])) ++ [nl] =
    (l₀ ++ (rest.map (fun l => nl :: nl :: l)).flatten) ++ [nl, nl, nl] by simp]
  rw [rstripWs_append_sp (by
    intro c hc
    simp only [List.mem_cons, List.not_mem_nil, or_false] at hc
    rcases hc with rfl | rfl | rfl <;> simp [pyIsSpace, nl])]
  rw [rstripWs_id (body_last_not_space hlastne hlastws)]
  rw [collapseNl_append (hnl l₀ (by simp))]
  have hTlast : rest.getLast? ≠ some [] := by
    cases rest with
    | nil => simp
    | cons m rest' =>
      intro e
      exact hlastne [] (by rw [List.getLast?_cons_cons]; exact e) rfl
  rw [collapseNl_tailJoin rest (fun l hl => hnl l (by simp [hl])) hTlast]
  have hhead : ∀ c,
      (l₀ ++ ((rest.filter (fun l => !l.isEmpty)).map (fun l => nl :: l)).flatten).head? =
        some c → c ≠ nl := by
    intro c hc
    cases l₀ with
    | nil => exact absurd rfl h₀
    | cons d l₀' =>
      simp only [List.cons_append, List.head?_cons, Option.some.injEq] at hc
      subst hc
      have hd := hnl (d :: l₀') (by simp)
      simp only [List.mem_cons, not_or] at hd
      exact fun e => hd.1 e.symm
  rw [stripNl_id hhead (njoin_last_not_nl hlastne hlastws)]
  rw [List.filter_cons, if_pos (by simp [List.isEmpty_iff, h₀])]
  exact (joinSep_nl_eq_flat _ l₀).symm

theorem invRat_eq_one_div (n : Nat) (h : n ≠ 0) : invRat n = 1 / (n : ℚ) := by
  cases n with
  | zero => exact absurd rfl h
  | succ m =>
    show (⟨1, m + 1, Nat.succ_ne_zero m, Nat.coprime_one_left _⟩ : ℚ) = 1 / ((m + 1 : Nat) : ℚ)
    rw [Rat.mk'_eq_divInt, Rat.divInt_eq_div]
    push_cast
    ring

/-! ### Claim theorems -/

/-- C10: on the empty document, `quiz_md_to_json` does not return an empty
result: splitting `""` on `"\n\n\n"` yields the single empty block `[""]`,
whose first line does not begin with `"# "`, so `check_md_q` aborts the whole
run with the `MissingTitle` error quoting the empty first line. -/
theorem C10_empty_doc_missing_title :
    splitSub (str "\n\n\n") (str "") = [str ""] ∧
    quiz_md_to_json (str "") =
      .error (.sysExit (str "Error: Question starting with \"\" does not have a title.")) := by
  decide

/-- C1, counterexample: the round-trip claim fails as stated.  The record
`⟨name "Q", statement "S", feedback "", no metadata, one correct answer "A"
with grade 1⟩` is well-formed in the claim's sense (single-line fields, no
line beginning with `"# "` or `"## "`, grades satisfying the §3 invariant
with one correct answer), yet parsing its serialization yields statement
`"S\n"` — a trailing newline is appended — which differs from `"S"`.
(Python's `'\n'.join(field.split('\n')[1:])` keeps the empty piece that
`split` produces after the statement's final newline.) -/
theorem C1_counterexample :
    md_to_json (json_to_md ⟨str "Q", str "S", str "", [], [⟨str "A", true, 1⟩], 1⟩) =
      .ok ⟨str "Q", str "S\n", str "", [], [⟨str "A", true, invRat 1⟩], 1⟩ ∧
    str "S\n" ≠ str "S" := by
  decide

/-- C2, counterexample: a block with two `'Question Answers'` sections is
accepted by the validator and parses with `correct_answers_no = 1`, but the
answers appended while processing the first section keep the grade `1/2`
computed from that section's own correct count, violating `grade = 1/n`. -/
theorem C2_counterexample :
    md_to_json
        (str "# T\n## Question Text\nx\n## Question Answers\n+ a\n+ b\n## Question Answers\n+ c") =
      .ok ⟨str "T", str "x\n", str "", [],
        [⟨str "a", true, invRat 2⟩, ⟨str "b", true, invRat 2⟩, ⟨str "c", true, invRat 1⟩], 1⟩ ∧
    invRat 2 ≠ (1 : ℚ) := by
  decide

/-- C3, counterexample: the division by zero in `md_to_json` is reachable.
The validator only inspects the first `'Question Answers'`-prefixed field, so
a second `'Question Answers'` section with no `+` line passes validation and
then divides `1 / 0` (Python raises `ZeroDivisionError`). -/
theorem C3_counterexample :
    md_to_json (str "# T\n## Question Text\nx\n## Question Answers\n+ a\n## Question Answers\n- b") =
      .error .zeroDivisionError := by
  decide

/-- C4, counterexample: a titled block with both required sections whose
answer lines include none beginning with `'+'` does not always fail with the
`NoCorrectAnswer` exit: an empty answer line makes `ans[0]` raise
`IndexError` first, so the run dies with a traceback instead of the
`sys.exit` message. -/
theorem C4_counterexample :
    check_md_q (str "# T4\n## Question Text\nx\n## Question Answers\n\n- a") =
      .error .indexError ∧
    (PyError.indexError : PyError) ≠
      .sysExit (str "Error: No correct answer set for question \"T4\".") := by
  decide

/-- C5, counterexample: with two `'Question Answers'` sections the field
`correct_answers_no` (overwritten by the last section's count, here 1) does
not equal the number of answers marked correct in the record (here 2). -/
theorem C5_counterexample :
    md_to_json (str "# T5\n## Question Text\nx\n## Question Answers\n+ a\n## Question Answers\n+ b") =
      .ok ⟨str "T5", str "x\n", str "", [],
        [⟨str "a", true, invRat 1⟩, ⟨str "b", true, invRat 1⟩], 1⟩ ∧
    (([⟨str "a", true, invRat 1⟩, ⟨str "b", true, invRat 1⟩] : List Answer).filter
      (fun a => a.correct)).length ≠ 1 := by
  decide

/-- C6, counterexample: `meta.split("=")` splits on every `'='` and
`tag_pair[1]` is the text between the first and second `'='`, not the whole
remainder of the line: the metadata line `a=b=c` stores value `"b"`, whereas
the claim's "entire remainder after the first `'='`" would be `"b=c"`. -/
theorem C6_counterexample :
    md_to_json (str "# T6\n## Question Text\nx\n## Question Answers\n+ y\n## Metadata\na=b=c") =
      .ok ⟨str "T6", str "x\n", str "", [(str "a", [str "b"])],
        [⟨str "y", true, invRat 1⟩], 1⟩ ∧
    str "b" ≠ str "b=c" := by
  decide

/-! ### Metadata lemmas (C6, C7) -/

theorem sepOk_char {c : Char} {x : Str} (h : c ∉ x) (r : Str) : SepOk [c] x r := by
  intro x₂ hne hsuf
  cases x₂ with
  | nil => exact absurd rfl hne
  | cons a t =>
    have ha : a ≠ c := fun e => h (e ▸ hsuf.subset (by simp))
    simp [List.isPrefixOf, Ne.symm ha]

theorem hasSub_char_eq_false {c : Char} {p : Str} (h : c ∉ p) : hasSub [c] p = false := by
  induction p with
  | nil => rfl
  | cons d ds ih =>
    simp only [List.mem_cons, not_or] at h
    simp only [hasSub, Bool.or_eq_false_iff, List.isPrefixOf, List.isPrefixOf_nil_left,
      Bool.and_true]
    exact ⟨by simp only [beq_eq_false_iff_ne]; exact h.1, ih h.2⟩

theorem lookupMeta_addMeta_self (ps : List (Str × List Str)) (k v : Str) :
    lookupMeta (addMeta ps k v) k = some ((lookupMeta ps k).getD [] ++ [v]) := by
  induction ps with
  | nil => simp [addMeta, lookupMeta]
  | cons p rest ih =>
    obtain ⟨k', vs⟩ := p
    by_cases hk : k' = k
    · subst hk
      simp [addMeta, lookupMeta]
    · simp [addMeta, lookupMeta, hk, ih]

theorem lookupMeta_addMeta_ne (ps : List (Str × List Str)) {k k' : Str} (v : Str)
    (h : k' ≠ k) : lookupMeta (addMeta ps k' v) k = lookupMeta ps k := by
  induction ps with
  | nil => simp [addMeta, lookupMeta, h]
  | cons p rest ih =>
    obtain ⟨k'', vs⟩ := p
    by_cases hk : k'' = k'
    · subst hk
      simp [addMeta, lookupMeta, h]
    · simp [addMeta, lookupMeta, hk, ih]

theorem lookupMeta_buildMeta_aux :
    ∀ (pairs : List (Str × Str)) (ps : List (Str × List Str)) (k : Str),
      lookupMeta (pairs.foldl (fun m p => addMeta m p.1 p.2) ps) k =
        if lookupMeta ps k = none ∧ pairs.filter (fun p => p.1 = k) = [] then none
        else some ((lookupMeta ps k).getD [] ++
          (pairs.filter (fun p => p.1 = k)).map Prod.snd) := by
  intro pairs
  induction pairs with
  | nil =>
    intro ps k
    cases h : lookupMeta ps k <;> simp [h]
  | cons p pairs' ih =>
    intro ps k
    obtain ⟨k', v'⟩ := p
    show lookupMeta (pairs'.foldl (fun m p => addMeta m p.1 p.2) (addMeta ps k' v')) k = _
    rw [ih (addMeta ps k' v') k]
    by_cases hk : k' = k
    · subst hk
      simp only [lookupMeta_addMeta_self]
      rw [if_neg (by simp)]
      rw [show ((k', v') :: pairs').filter (fun p => p.1 = k') =
        (k', v') :: pairs'.filter (fun p => p.1 = k') by simp]
      rw [if_neg (by simp)]
      simp
    · rw [lookupMeta_addMeta_ne ps v' hk]
      rw [show ((k', v') :: pairs').filter (fun p => p.1 = k) =
        pairs'.filter (fun p => p.1 = k) by simp [hk]]

theorem C6_metadata_split_amended :
    (∀ (q : Question) (k v rest : Str), '=' ∉ k → '=' ∉ v →
      metaLoop q [k ++ ['='] ++ (v ++ ['='] ++ rest)] = .ok (set_meta q k v)) ∧
    (∀ (q : Question) (k v : Str), '=' ∉ k → '=' ∉ v →
      metaLoop q [k ++ ['='] ++ v] = .ok (set_meta q k v)) ∧
    (∀ (ps : List (Str × List Str)) (k v : Str),
      lookupMeta (addMeta ps k v) k = some ((lookupMeta ps k).getD [] ++ [v])) := by
  refine ⟨?_, ?_, lookupMeta_addMeta_self⟩
  · intro q k v rest hk hv
    have h3 : splitSub ['='] (k ++ ['='] ++ (v ++ ['='] ++ rest)) =
        k :: v :: splitSub ['='] rest := by
      rw [splitSub_append (by simp) (sepOk_char hk _),
        splitSub_append (by simp) (sepOk_char hv _)]
    simp only [metaLoop, h3]
  · intro q k v hk hv
    have h3 : splitSub ['='] (k ++ ['='] ++ v) = k :: [v] := by
      rw [splitSub_append (by simp) (sepOk_char hk _),
        splitSub_single (by simp) (hasSub_char_eq_false hv)]
    simp only [metaLoop, h3]

/-- C6, witness instance: a two-`'='` line stores the middle segment. -/
theorem C6_witness :
    metaLoop ⟨[], [], [], [], [], 0⟩ [str "a" ++ ['='] ++ (str "b" ++ ['='] ++ str "c")] =
      .ok (set_meta ⟨[], [], [], [], [], 0⟩ (str "a") (str "b")) :=
  C6_metadata_split_amended.1 ⟨[], [], [], [], [], 0⟩ (str "a") (str "b") (str "c")
    (by decide) (by decide)

theorem C7_get_meta :
    (∀ (pairs : List (Str × Str)) (k : Str),
      (pairs.filter (fun p => p.1 = k) = [] →
        get_meta ⟨[], [], [], buildMeta pairs, [], 0⟩ k = .s (str "")) ∧
      (∀ v, (pairs.filter (fun p => p.1 = k)).map Prod.snd = [v] →
        get_meta ⟨[], [], [], buildMeta pairs, [], 0⟩ k = .s v) ∧
      (2 ≤ ((pairs.filter (fun p => p.1 = k)).map Prod.snd).length →
        get_meta ⟨[], [], [], buildMeta pairs, [], 0⟩ k =
          .l ((pairs.filter (fun p => p.1 = k)).map Prod.snd))) ∧
    (md_to_json
        (str "# T7\n## Question Text\nx\n## Question Answers\n+ y\n## Metadata\ntag=a\ntag=b") =
      .ok ⟨str "T7", str "x\n", str "", [(str "tag", [str "a", str "b"])],
        [⟨str "y", true, invRat 1⟩], 1⟩ ∧
      get_meta ⟨str "T7", str "x\n", str "", [(str "tag", [str "a", str "b"])],
        [⟨str "y", true, invRat 1⟩], 1⟩ (str "tag") = .l [str "a", str "b"]) ∧
    (md_to_json
        (str "# T8\n## Question Text\nx\n## Question Answers\n+ y\n## Metadata\ntag=x") =
      .ok ⟨str "T8", str "x\n", str "", [(str "tag", [str "x"])],
        [⟨str "y", true, invRat 1⟩], 1⟩ ∧
      get_meta ⟨str "T8", str "x\n", str "", [(str "tag", [str "x"])],
        [⟨str "y", true, invRat 1⟩], 1⟩ (str "tag") = .s (str "x")) := by
  refine ⟨?_, by decide, by decide⟩
  intro pairs k
  have hlook : lookupMeta (buildMeta pairs) k =
      if pairs.filter (fun p => p.1 = k) = [] then none
      else some ((pairs.filter (fun p => p.1 = k)).map Prod.snd) := by
    have := lookupMeta_buildMeta_aux pairs [] k
    simp only [lookupMeta] at this
    rw [show buildMeta pairs = pairs.foldl (fun m p => addMeta m p.1 p.2) [] from rfl, this]
    by_cases h : pairs.filter (fun p => p.1 = k) = [] <;> simp [h]
  refine ⟨?_, ?_, ?_⟩
  · intro h
    simp [get_meta, hlook, h]
  · intro v h
    have hne : pairs.filter (fun p => p.1 = k) ≠ [] := by
      intro e
      rw [e] at h
      exact List.noConfusion h
    simp [get_meta, hlook, hne, h]
  · intro h
    have hne : pairs.filter (fun p => p.1 = k) ≠ [] := by
      intro e
      rw [e] at h
      simp at h
    have hlen : (pairs.filter (fun p => p.1 = k)).length ≠ 1 := by
      simp only [List.length_map] at h
      omega
    simp [get_meta, hlook, hne, hlen]

/-- C7, witness instance: two `set_meta` calls under the same tag accumulate,
and `get_meta` returns the single value directly when one value is stored. -/
theorem C7_get_meta_witness :
    get_meta ⟨[], [], [], buildMeta [(str "tag", str "a"), (str "tag", str "b")], [], 0⟩
      (str "tag") = .l [str "a", str "b"] ∧
    get_meta ⟨[], [], [], buildMeta [(str "tag", str "x")], [], 0⟩ (str "tag") =
      .s (str "x") ∧
    get_meta ⟨[], [], [], buildMeta [(str "tag", str "x")], [], 0⟩ (str "zz") =
      .s (str "") :=
  ⟨((C7_get_meta.1 [(str "tag", str "a"), (str "tag", str "b")] (str "tag")).2.2 (by decide)),
   ((C7_get_meta.1 [(str "tag", str "x")] (str "tag")).2.1 (str "x") (by decide)),
   ((C7_get_meta.1 [(str "tag", str "x")] (str "zz")).1 (by decide))⟩

/-! ### Answer-section lemmas (C9, and shared by C2/C5) -/

theorem countPlus_filter : ∀ {lines : List Str}, (∀ l ∈ lines, l ≠ []) →
    countPlus lines = countPlus (lines.filter isAnsHead) := by
  intro lines
  induction lines with
  | nil => intro _; rfl
  | cons l rest ih =>
    intro h
    cases l with
    | nil => exact absurd rfl (h [] (by simp))
    | cons c cs =>
      have hrest := ih (fun a ha => h a (by simp [ha]))
      by_cases hp : c = '+'
      · subst hp
        simp only [countPlus, List.filter_cons, show isAnsHead ('+' :: cs) = true by
          simp [isAnsHead], if_pos trivial]
        rw [hrest]
      · by_cases hm : c = '-'
        · subst hm
          simp only [countPlus, List.filter_cons, show isAnsHead ('-' :: cs) = true by
            simp [isAnsHead], if_pos trivial]
          rw [hrest]
        · have hhd : isAnsHead (c :: cs) = false := by simp [isAnsHead, hp, hm]
          simp only [List.filter_cons, hhd, Bool.false_eq_true, if_false]
          rw [← hrest]
          simp only [countPlus]
          cases hcp : countPlus rest with
          | error e => rfl
          | ok n => simp [hp]

theorem ansLoop_filter (n : Nat) (g : ℚ) :
    ∀ {lines : List Str}, (∀ l ∈ lines, l ≠ []) → ∀ (acc : List Answer),
      ansLoop n g acc lines = ansLoop n g acc (lines.filter isAnsHead) := by
  intro lines
  induction lines with
  | nil => intro _ acc; rfl
  | cons l rest ih =>
    intro h acc
    cases l with
    | nil => exact absurd rfl (h [] (by simp))
    | cons c cs =>
      have hrest := ih (fun a ha => h a (by simp [ha]))
      by_cases hp : c = '+'
      · subst hp
        simp only [List.filter_cons, show isAnsHead ('+' :: cs) = true by simp [isAnsHead],
          if_pos trivial]
        simp only [ansLoop, if_pos rfl]
        exact hrest _
      · by_cases hm : c = '-'
        · subst hm
          simp only [List.filter_cons, show isAnsHead ('-' :: cs) = true by simp [isAnsHead],
            if_pos trivial]
          simp only [ansLoop, if_neg (by decide : ¬('-' : Char) = '+'), if_pos rfl]
          exact hrest _
        · have hhd : isAnsHead (c :: cs) = false := by simp [isAnsHead, hp, hm]
          simp only [List.filter_cons, hhd, Bool.false_eq_true, if_false]
          simp only [ansLoop, if_neg hp, if_neg hm]
          exact hrest _

theorem ansLoop_ok_length (n : Nat) (g : ℚ) :
    ∀ {lines : List Str} (acc answers : List Answer), (∀ l ∈ lines, l ≠ []) →
      ansLoop n g acc lines = .ok answers →
      answers.length = acc.length + (lines.filter isAnsHead).length := by
  intro lines
  induction lines with
  | nil =>
    intro acc answers _ h
    simp only [ansLoop, Except.ok.injEq] at h
    subst h
    simp
  | cons l rest ih =>
    intro acc answers hne h
    cases l with
    | nil => exact absurd rfl (hne [] (by simp))
    | cons c cs =>
      have hr : ∀ l ∈ rest, l ≠ [] := fun a ha => hne a (by simp [ha])
      by_cases hp : c = '+'
      · subst hp
        simp only [ansLoop, if_pos rfl] at h
        have := ih _ _ hr h
        simp only [List.filter_cons, show isAnsHead ('+' :: cs) = true by simp [isAnsHead],
          if_pos trivial]
        simp only [List.length_append, List.length_cons, List.length_nil] at this ⊢
        omega
      · by_cases hm : c = '-'
        · subst hm
          simp only [ansLoop, if_neg (by decide : ¬('-' : Char) = '+'), if_pos rfl] at h
          have := ih _ _ hr h
          simp only [List.filter_cons, show isAnsHead ('-' :: cs) = true by simp [isAnsHead],
            if_pos trivial]
          simp only [List.length_append, List.length_cons, List.length_nil] at this ⊢
          omega
        · have hhd : isAnsHead (c :: cs) = false := by simp [isAnsHead, hp, hm]
          simp only [ansLoop, if_neg hp, if_neg hm] at h
          have := ih _ _ hr h
          simp only [List.filter_cons, hhd, Bool.false_eq_true, if_false]
          omega

/-- C9: a `'Question Answers'` line beginning with neither `'+'` nor `'-'`
is silently omitted: the section parse of `md_to_json` gives the same result
as if the line were absent (so it contributes no answer record, is not
counted, and raises no error), and the answers of a successful parse
correspond exactly to the `+`/`-`-headed lines.  (The nonemptiness hypothesis
holds for every line `md_to_json` feeds this loop, since newline runs are
collapsed first.)  The concrete conjunct shows a full `md_to_json` run where
the stray line `zzz` is dropped. -/
theorem C9_skip_unmarked_lines :
    (∀ (q : Question) (lines : List Str), (∀ l ∈ lines, l ≠ []) →
      procAnswers q lines = procAnswers q (lines.filter isAnsHead) ∧
      ∀ q', procAnswers q lines = .ok q' →
        q'.answers.length = q.answers.length + (lines.filter isAnsHead).length) ∧
    md_to_json (str "# T9\n## Question Text\nx\n## Question Answers\n+ a\nzzz\n- b") =
      md_to_json (str "# T9\n## Question Text\nx\n## Question Answers\n+ a\n- b") := by
  refine ⟨?_, by decide⟩
  intro q lines h
  constructor
  · show (match countPlus lines with
      | .error e => .error e
      | .ok n => if n = 0 then .error .zeroDivisionError
        else match ansLoop n (invRat n) q.answers lines with
          | .error e => .error e
          | .ok answers => .ok { q with correct_answers_no := n, answers := answers }) =
      procAnswers q (lines.filter isAnsHead)
    rw [countPlus_filter h]
    cases hcp : countPlus (lines.filter isAnsHead) with
    | error e => simp [procAnswers, hcp]
    | ok n =>
      show (if n = 0 then _ else _) = procAnswers q (lines.filter isAnsHead)
      by_cases hn : n = 0
      · simp [procAnswers, hcp, hn]
      · rw [if_neg hn]
        rw [ansLoop_filter n (invRat n) h q.answers]
        simp [procAnswers, hcp, hn]
  · intro q' hq'
    unfold procAnswers at hq'
    split at hq'
    next e hcp => exact absurd hq' (by simp)
    next n hcp =>
      split at hq'
      · exact absurd hq' (by simp)
      next hn =>
        split at hq'
        next e hal => exact absurd hq' (by simp)
        next answers hal =>
          simp only [Except.ok.injEq] at hq'
          subst hq'
          exact ansLoop_ok_length n (invRat n) q.answers answers h hal

/-- C9, witness: the stray line `zzz` between two answer lines is dropped by
the answer-section parse. -/
theorem C9_witness :
    procAnswers ⟨str "W", [], [], [], [], 0⟩ [str "+ a", str "zzz", str "- b"] =
      procAnswers ⟨str "W", [], [], [], [], 0⟩
        ([str "+ a", str "zzz", str "- b"].filter isAnsHead) :=
  (C9_skip_unmarked_lines.1 ⟨str "W", [], [], [], [], 0⟩
    [str "+ a", str "zzz", str "- b"] (by decide)).1

/-! ### Validator lemmas (C4) -/

theorem countPlus_zero {lines : List Str}
    (h : ∀ l ∈ lines, l ≠ [] ∧ l.headD ' ' ≠ '+') : countPlus lines = .ok 0 := by
  induction lines with
  | nil => rfl
  | cons l rest ih =>
    cases l with
    | nil => exact absurd rfl (h [] (by simp)).1
    | cons c cs =>
      have hc : c ≠ '+' := by
        have := (h (c :: cs) (by simp)).2
        simpa using this
      simp only [countPlus, ih (fun a ha => h a (by simp [ha])), if_neg hc]

theorem mdBlocksToJson_error :
    ∀ (bs : List Str), (∃ b ∈ bs, ∃ e, md_to_json b = .error e) →
      ∃ e, mdBlocksToJson bs = .error e := by
  intro bs
  induction bs with
  | nil => intro h; simp at h
  | cons b rest ih =>
    intro h
    cases hb : md_to_json b with
    | error e => exact ⟨e, by simp [mdBlocksToJson, hb]⟩
    | ok q =>
      obtain ⟨b', hb', e', he'⟩ := h
      rcases List.mem_cons.mp hb' with rfl | hmem
      · rw [hb] at he'
        exact absurd he' (by simp)
      · obtain ⟨e, he⟩ := ih ⟨b', hmem, e', he'⟩
        exact ⟨e, by simp [mdBlocksToJson, hb, he]⟩

/-- C4 (amended): the three validator failures of `check_md_q`, and the
fail-fast abort of the whole conversion.  Part 1: a block whose first line
lacks the `'# '` marker exits with the `MissingTitle` message quoting that
line verbatim.  Part 2: a titled block whose `'## '`-section names lack
`'Question Text'` or `'Question Answers'` exits with the
`MissingRequiredSection` message naming the title.  Part 3: a titled block
with both sections, in which the first `'Question Answers'`-prefixed field
has only nonempty answer lines none of which begins with `'+'`, exits with
the `NoCorrectAnswer` message naming the title (the nonemptiness proviso is
the amendment: an empty answer line raises `IndexError` first, see the
counterexample).  Part 4: if any block of a document fails `md_to_json`, the
whole `quiz_md_to_json` run returns an error — no partial output. -/
theorem C4_validator_errors_amended :
    (∀ blk, (str "# ").isPrefixOf (firstLine blk) = false →
      check_md_q blk = .error (.sysExit (str "Error: Question starting with \""
        ++ firstLine blk ++ str "\" does not have a title."))) ∧
    (∀ blk, (str "# ").isPrefixOf (firstLine blk) = true →
      (str "Question Text" ∉ ((splitSub (str "## ") blk).drop 1).map firstLine ∨
       str "Question Answers" ∉ ((splitSub (str "## ") blk).drop 1).map firstLine) →
      check_md_q blk = .error (.sysExit (str "Error: No question text or answer set for question \""
        ++ (firstLine blk).drop 2 ++ str "\"."))) ∧
    (∀ blk f fs, (str "# ").isPrefixOf (firstLine blk) = true →
      str "Question Text" ∈ ((splitSub (str "## ") blk).drop 1).map firstLine →
      str "Question Answers" ∈ ((splitSub (str "## ") blk).drop 1).map firstLine →
      (splitSub (str "## ") blk).filter (fun s => (str "Question Answers").isPrefixOf s) =
        f :: fs →
      (∀ l ∈ (splitSub [nl] (rstripNl f)).drop 1, l ≠ [] ∧ l.headD ' ' ≠ '+') →
      check_md_q blk = .error (.sysExit (str "Error: No correct answer set for question \""
        ++ (firstLine blk).drop 2 ++ str "\"."))) ∧
    (∀ (doc : Str), (∃ b ∈ splitSub (str "\n\n\n") doc, ∃ e, md_to_json b = .error e) →
      ∃ e, quiz_md_to_json doc = .error e) := by
  refine ⟨?_, ?_, ?_, ?_⟩
  · intro blk h
    simp [check_md_q, h]
  · intro blk h1 h2
    unfold check_md_q
    rw [if_neg (by simp [h1]), if_pos h2]
  · intro blk f fs h1 h2 h3 hf hl
    unfold check_md_q
    rw [if_neg (by simp [h1]), if_neg (by push_neg; exact ⟨h2, h3⟩), hf]
    have hz := countPlus_zero hl
    rw [List.drop_one] at hz
    simp [hz]
  · intro doc h
    exact mdBlocksToJson_error _ h

/-- C4, witness: the three failures at concrete blocks, and a document whose
only block is invalid aborting the whole run. -/
theorem C4_witness :
    check_md_q (str "oops") = .error (.sysExit (str "Error: Question starting with \""
      ++ firstLine (str "oops") ++ str "\" does not have a title.")) ∧
    check_md_q (str "# W\nstuff") =
      .error (.sysExit (str "Error: No question text or answer set for question \""
        ++ (firstLine (str "# W\nstuff")).drop 2 ++ str "\".")) ∧
    check_md_q (str "# W\n## Question Text\nx\n## Question Answers\n- a") =
      .error (.sysExit (str "Error: No correct answer set for question \""
        ++ (firstLine (str "# W\n## Question Text\nx\n## Question Answers\n- a")).drop 2
        ++ str "\".")) ∧
    ∃ e, quiz_md_to_json (str "# W") = .error e :=
  ⟨C4_validator_errors_amended.1 (str "oops") (by decide),
   C4_validator_errors_amended.2.1 (str "# W\nstuff") (by decide) (by decide),
   C4_validator_errors_amended.2.2.1 (str "# W\n## Question Text\nx\n## Question Answers\n- a")
     (str "Question Answers\n- a") [] (by decide) (by decide) (by decide) (by decide) (by decide),
   C4_validator_errors_amended.2.2.2 (str "# W")
     ⟨str "# W", by decide,
      ⟨.sysExit (str "Error: No question text or answer set for question \"W\"."), by decide⟩⟩⟩

/-! ### Pipeline lemmas (C8) -/

theorem mdBlocksToJson_length :
    ∀ (bs : List Str) (qs : List Question), mdBlocksToJson bs = .ok qs →
      qs.length = bs.length := by
  intro bs
  induction bs with
  | nil =>
    intro qs h
    simp only [mdBlocksToJson, Except.ok.injEq] at h
    subst h
    rfl
  | cons b rest ih =>
    intro qs h
    unfold mdBlocksToJson at h
    cases hb : md_to_json b with
    | error e => rw [hb] at h; exact absurd h (by simp)
    | ok q =>
      rw [hb] at h
      cases hr : mdBlocksToJson rest with
      | error e => rw [hr] at h; exact absurd h (by simp)
      | ok qs' =>
        rw [hr] at h
        simp only [Except.ok.injEq] at h
        subst h
        simp [ih qs' hr]

/-- C8: `quiz_md_to_json` splits the document on the `"\n\n\n"` boundary and
converts the blocks independently, in input order, with no reordering or
deduplication: on a document assembled from blocks that contain no
`"\n\n\n"` and do not end in a newline, the result is exactly the in-order
conversion of those blocks; a fully successful run has one record per block;
and `quiz_json_to_md` maps `json_to_md` over the records, preserving input
order. -/
theorem C8_pipeline_order :
    (∀ (bs : List Str), bs ≠ [] →
      (∀ b ∈ bs, hasSub (str "\n\n\n") b = false ∧ b.getLast? ≠ some nl) →
      quiz_md_to_json (joinSep (str "\n\n\n") bs) = mdBlocksToJson bs) ∧
    (∀ (bs : List Str) (qs : List Question), mdBlocksToJson bs = .ok qs →
      qs.length = bs.length) ∧
    (∀ (json_arr : List Question), quiz_json_to_md json_arr = json_arr.map json_to_md) := by
  refine ⟨?_, mdBlocksToJson_length, fun _ => rfl⟩
  intro bs hne h
  unfold quiz_md_to_json
  rw [splitSub_joinSep_nnn h hne]

/-- C8, witness: a 3-question document converts to the 3 per-block records
in original order. -/
theorem C8_pipeline_witness :
    quiz_md_to_json (joinSep (str "\n\n\n")
        [str "# A\n\n## Question Text\n\nq1\n\n## Question Answers\n\n+ 1\n- 2",
         str "# B\n\n## Question Text\n\nq2\n\n## Question Answers\n\n+ 3",
         str "# C\n\n## Question Text\n\nq3\n\n## Question Answers\n\n- 4\n+ 5"]) =
      mdBlocksToJson
        [str "# A\n\n## Question Text\n\nq1\n\n## Question Answers\n\n+ 1\n- 2",
         str "# B\n\n## Question Text\n\nq2\n\n## Question Answers\n\n+ 3",
         str "# C\n\n## Question Text\n\nq3\n\n## Question Answers\n\n- 4\n+ 5"] ∧
    ([⟨str "A", str "q1\n", str "", [], [⟨str "1", true, invRat 1⟩, ⟨str "2", false, 0⟩], 1⟩,
      ⟨str "B", str "q2\n", str "", [], [⟨str "3", true, invRat 1⟩], 1⟩,
      ⟨str "C", str "q3\n", str "", [], [⟨str "4", false, 0⟩, ⟨str "5", true, invRat 1⟩], 1⟩]
        : List Question).length = 3 ∧
    mdBlocksToJson
        [str "# A\n\n## Question Text\n\nq1\n\n## Question Answers\n\n+ 1\n- 2",
         str "# B\n\n## Question Text\n\nq2\n\n## Question Answers\n\n+ 3",
         str "# C\n\n## Question Text\n\nq3\n\n## Question Answers\n\n- 4\n+ 5"] =
      .ok [⟨str "A", str "q1\n", str "", [], [⟨str "1", true, invRat 1⟩, ⟨str "2", false, 0⟩], 1⟩,
        ⟨str "B", str "q2\n", str "", [], [⟨str "3", true, invRat 1⟩], 1⟩,
        ⟨str "C", str "q3\n", str "", [], [⟨str "4", false, 0⟩, ⟨str "5", true, invRat 1⟩], 1⟩] :=
  ⟨C8_pipeline_order.1
      [str "# A\n\n## Question Text\n\nq1\n\n## Question Answers\n\n+ 1\n- 2",
       str "# B\n\n## Question Text\n\nq2\n\n## Question Answers\n\n+ 3",
       str "# C\n\n## Question Text\n\nq3\n\n## Question Answers\n\n- 4\n+ 5"]
      (by decide) (by decide),
   C8_pipeline_order.2.1
      [str "# A\n\n## Question Text\n\nq1\n\n## Question Answers\n\n+ 1\n- 2",
       str "# B\n\n## Question Text\n\nq2\n\n## Question Answers\n\n+ 3",
       str "# C\n\n## Question Text\n\nq3\n\n## Question Answers\n\n- 4\n+ 5"]
      [⟨str "A", str "q1\n", str "", [], [⟨str "1", true, invRat 1⟩, ⟨str "2", false, 0⟩], 1⟩,
       ⟨str "B", str "q2\n", str "", [], [⟨str "3", true, invRat 1⟩], 1⟩,
       ⟨str "C", str "q3\n", str "", [], [⟨str "4", false, 0⟩, ⟨str "5", true, invRat 1⟩], 1⟩]
      (by decide),
   by decide⟩

/-! ### Parsing-loop invariants (C2, C5) -/

theorem metaLoop_preserves :
    ∀ (ms : List Str) (q q' : Question), metaLoop q ms = .ok q' →
      q'.answers = q.answers ∧ q'.correct_answers_no = q.correct_answers_no := by
  intro ms
  induction ms with
  | nil =>
    intro q q' h
    simp only [metaLoop, Except.ok.injEq] at h
    subst h
    exact ⟨rfl, rfl⟩
  | cons m rest ih =>
    intro q q' h
    unfold metaLoop at h
    split at h
    next k v t heq => exact ih (set_meta q k v) q' h
    next => exact absurd h (by simp)

theorem processField_not_qa {q q' : Question} {field : Str}
    (hname : firstLine field ≠ str "Question Answers")
    (h : processField q field = .ok q') :
    q'.answers = q.answers ∧ q'.correct_answers_no = q.correct_answers_no := by
  simp only [processField] at h
  split_ifs at h with h1 h2 h3 h4 <;>
    first
      | exact absurd ‹firstLine field = str "Question Answers"› hname
      | exact metaLoop_preserves _ q q' h
      | (simp only [Except.ok.injEq] at h; subst h; exact ⟨rfl, rfl⟩)

theorem fieldsLoop_no_qa :
    ∀ (fields : List Str) (q q' : Question),
      (∀ f ∈ fields, firstLine f ≠ str "Question Answers") →
      fieldsLoop q fields = .ok q' →
      q'.answers = q.answers ∧ q'.correct_answers_no = q.correct_answers_no := by
  intro fields
  induction fields with
  | nil =>
    intro q q' _ h
    simp only [fieldsLoop, Except.ok.injEq] at h
    subst h
    exact ⟨rfl, rfl⟩
  | cons f rest ih =>
    intro q q' hn h
    unfold fieldsLoop at h
    cases hp : processField q f with
    | error e => rw [hp] at h; exact absurd h (by simp)
    | ok q1 =>
      rw [hp] at h
      have h1 := processField_not_qa (hn f (by simp)) hp
      have h2 := ih q1 q' (fun a ha => hn a (by simp [ha])) h
      exact ⟨h2.1.trans h1.1, h2.2.trans h1.2⟩

theorem ansLoop_mem_grades (n : Nat) (g : ℚ) :
    ∀ (lines : List Str) (acc answers : List Answer),
      ansLoop n g acc lines = .ok answers → ∀ a ∈ answers, a ∈ acc ∨
        ((a.correct = true → a.grade = g) ∧
         (a.correct = false → a.grade = if 1 < n then -g else 0)) := by
  intro lines
  induction lines with
  | nil =>
    intro acc answers h a ha
    simp only [ansLoop, Except.ok.injEq] at h
    subst h
    exact Or.inl ha
  | cons l rest ih =>
    intro acc answers h a ha
    cases l with
    | nil => exact absurd h (by simp [ansLoop])
    | cons c cs =>
      by_cases hp : c = '+'
      · subst hp
        rw [show ansLoop n g acc (('+' :: cs) :: rest) =
          ansLoop n g (acc ++ [⟨('+' :: cs).drop 2, true, g⟩]) rest by
            simp [ansLoop]] at h
        rcases ih _ answers h a ha with hmem | hprop
        · rcases List.mem_append.mp hmem with hmem' | hone
          · exact Or.inl hmem'
          · simp only [List.mem_singleton] at hone
            subst hone
            exact Or.inr ⟨fun _ => rfl, fun hc => by simp at hc⟩
        · exact Or.inr hprop
      · by_cases hm : c = '-'
        · subst hm
          rw [show ansLoop n g acc (('-' :: cs) :: rest) =
            ansLoop n g (acc ++ [⟨('-' :: cs).drop 2, false,
              if 1 < n then -g else 0⟩]) rest by
              simp [ansLoop]] at h
          rcases ih _ answers h a ha with hmem | hprop
          · rcases List.mem_append.mp hmem with hmem' | hone
            · exact Or.inl hmem'
            · simp only [List.mem_singleton] at hone
              subst hone
              exact Or.inr ⟨fun hc => by simp at hc, fun _ => rfl⟩
          · exact Or.inr hprop
        · rw [show ansLoop n g acc ((c :: cs) :: rest) = ansLoop n g acc rest by
            simp [ansLoop, hp, hm]] at h
          exact ih _ answers h a ha

theorem ansLoop_correct_count (n : Nat) (g : ℚ) :
    ∀ (lines : List Str) (acc answers : List Answer) (m : Nat),
      ansLoop n g acc lines = .ok answers → countPlus lines = .ok m →
      (answers.filter (fun a => a.correct)).length =
        (acc.filter (fun a => a.correct)).length + m := by
  intro lines
  induction lines with
  | nil =>
    intro acc answers m h hc
    simp only [ansLoop, Except.ok.injEq] at h
    simp only [countPlus, Except.ok.injEq] at hc
    subst h
    subst hc
    rfl
  | cons l rest ih =>
    intro acc answers m h hc
    cases l with
    | nil => exact absurd h (by simp [ansLoop])
    | cons c cs =>
      unfold countPlus at hc
      cases hcr : countPlus rest with
      | error e => rw [hcr] at hc; exact absurd hc (by simp)
      | ok m' =>
        rw [hcr] at hc
        simp only [Except.ok.injEq] at hc
        by_cases hp : c = '+'
        · subst hp
          rw [show ansLoop n g acc (('+' :: cs) :: rest) =
            ansLoop n g (acc ++ [⟨('+' :: cs).drop 2, true, g⟩]) rest by
              simp [ansLoop]] at h
          have := ih _ answers m' h hcr
          rw [if_pos rfl] at hc
          subst hc
          simp only [List.filter_append, List.length_append] at this
          simp only [this]
          simp [List.filter_cons]
          omega
        · by_cases hm : c = '-'
          · subst hm
            rw [show ansLoop n g acc (('-' :: cs) :: rest) =
              ansLoop n g (acc ++ [⟨('-' :: cs).drop 2, false,
                if 1 < n then -g else 0⟩]) rest by
                simp [ansLoop]] at h
            have := ih _ answers m' h hcr
            rw [if_neg (by decide : ¬('-' : Char) = '+')] at hc
            subst hc
            simp only [List.filter_append, List.length_append] at this
            simp only [this]
            simp [List.filter_cons]
          · rw [show ansLoop n g acc ((c :: cs) :: rest) = ansLoop n g acc rest by
              simp [ansLoop, hp, hm]] at h
            have := ih _ answers m' h hcr
            rw [if_neg hp] at hc
            subst hc
            exact this

theorem procAnswers_props {q q' : Question} {lines : List Str}
    (h : procAnswers q lines = .ok q') (hq : q.answers = []) :
    1 ≤ q'.correct_answers_no ∧
    (q'.answers.filter (fun a => a.correct)).length = q'.correct_answers_no ∧
    ∀ a ∈ q'.answers,
      (a.correct = true → a.grade = invRat q'.correct_answers_no) ∧
      (a.correct = false → a.grade =
        if 1 < q'.correct_answers_no then -invRat q'.correct_answers_no else 0) := by
  unfold procAnswers at h
  split at h
  next e hcp => exact absurd h (by simp)
  next n hcp =>
    split at h
    · exact absurd h (by simp)
    next hn =>
      split at h
      next e hal => exact absurd h (by simp)
      next answers hal =>
        simp only [Except.ok.injEq] at h
        subst h
        rw [hq] at hal
        refine ⟨?_, ?_, ?_⟩
        · show 1 ≤ n
          omega
        · show (answers.filter (fun a => a.correct)).length = n
          have := ansLoop_correct_count n (invRat n) lines [] answers n hal hcp
          simpa using this
        · intro a ha
          rcases ansLoop_mem_grades n (invRat n) lines [] answers hal a ha with hmem | hprop
          · simp at hmem
          · exact hprop

theorem fieldsLoop_unique_qa :
    ∀ (fields : List Str) (q0 q : Question), fieldsLoop q0 fields = .ok q →
      (fields.filter (fun f => firstLine f = str "Question Answers")).length = 1 →
      q0.answers = [] →
      1 ≤ q.correct_answers_no ∧
      (q.answers.filter (fun a => a.correct)).length = q.correct_answers_no ∧
      ∀ a ∈ q.answers,
        (a.correct = true → a.grade = invRat q.correct_answers_no) ∧
        (a.correct = false → a.grade =
          if 1 < q.correct_answers_no then -invRat q.correct_answers_no else 0) := by
  intro fields
  induction fields with
  | nil => intro q0 q _ hlen; simp at hlen
  | cons f rest ih =>
    intro q0 q h hlen hq0
    unfold fieldsLoop at h
    cases hp : processField q0 f with
    | error e => rw [hp] at h; exact absurd h (by simp)
    | ok q1 =>
      rw [hp] at h
      by_cases hname : firstLine f = str "Question Answers"
      · have hrest : (rest.filter (fun f => firstLine f = str "Question Answers")).length = 0 := by
          rw [List.filter_cons, if_pos (by simp [hname])] at hlen
          simpa using hlen
        have hnoqa : ∀ f' ∈ rest, firstLine f' ≠ str "Question Answers" := by
          intro f' hf' he
          have : f' ∈ rest.filter (fun f => firstLine f = str "Question Answers") :=
            List.mem_filter.mpr ⟨hf', by simp [he]⟩
          rw [List.length_eq_zero.mp hrest] at this
          simp at this
        have hqa : procAnswers q0 ((splitSub [nl] (rstripNl f)).drop 1) = .ok q1 := by
          unfold processField at hp
          rw [if_neg (by rw [hname]; decide), if_pos hname] at hp
          exact hp
        have hps := procAnswers_props hqa hq0
        have hfin := fieldsLoop_no_qa rest q1 q hnoqa h
        rw [hfin.1, hfin.2]
        exact hps
      · have h1 := processField_not_qa hname hp
        have hlen' : (rest.filter (fun f => firstLine f = str "Question Answers")).length = 1 := by
          rw [List.filter_cons, if_neg (by simp [hname])] at hlen
          exact hlen
        exact ih q1 q h hlen' (h1.1.trans hq0)

/-- C2 (amended): for a block whose normalized form has exactly one
`'## '`-field named `'Question Answers'`, a successful parse satisfies the
grade invariant: `correct_answers_no = n ≥ 1`, every correct answer has grade
`1/n`, every incorrect answer has grade `-1/n` when `n > 1` and `0` when
`n = 1`.  (Without the uniqueness hypothesis the invariant fails, see the
counterexample: earlier sections keep grades from their own counts.) -/
theorem C2_grade_invariant_amended (blk : Str) (q : Question)
    (hq : md_to_json blk = .ok q) (huniq : (qaFields blk).length = 1) :
    1 ≤ q.correct_answers_no ∧
    ∀ a ∈ q.answers,
      (a.correct = true → a.grade = 1 / (q.correct_answers_no : ℚ)) ∧
      (a.correct = false → a.grade =
        if 1 < q.correct_answers_no then -(1 / (q.correct_answers_no : ℚ)) else 0) := by
  simp only [md_to_json] at hq
  split at hq
  next e hc => exact absurd hq (by simp)
  next hc =>
    have hprops := fieldsLoop_unique_qa _ _ q hq huniq rfl
    obtain ⟨h1, _, h3⟩ := hprops
    refine ⟨h1, fun a ha => ?_⟩
    have := h3 a ha
    rw [invRat_eq_one_div q.correct_answers_no (by omega)] at this
    exact this

/-- C2, witness: a single-section block with one correct and two incorrect
answers satisfies the invariant with `n = 1`. -/
theorem C2_grade_witness :
    1 ≤ (1 : Nat) ∧
    ∀ a ∈ ([⟨str "a", true, invRat 1⟩, ⟨str "b", false, 0⟩, ⟨str "c", false, 0⟩] : List Answer),
      (a.correct = true → a.grade = 1 / ((1 : Nat) : ℚ)) ∧
      (a.correct = false → a.grade = if 1 < (1 : Nat) then -(1 / ((1 : Nat) : ℚ)) else 0) :=
  C2_grade_invariant_amended
    (str "# W2\n## Question Text\nx\n## Question Answers\n+ a\n- b\n- c")
    ⟨str "W2", str "x\n", str "", [],
      [⟨str "a", true, invRat 1⟩, ⟨str "b", false, 0⟩, ⟨str "c", false, 0⟩], 1⟩
    (by decide) (by decide)

/-- C5 (amended): for a record produced from a block whose normalized form
has exactly one `'## '`-field named `'Question Answers'`,
`correct_answers_no` equals the number of answers marked correct.  (With
duplicated sections it does not, see the counterexample.) -/
theorem C5_correct_count_amended (blk : Str) (q : Question)
    (hq : md_to_json blk = .ok q) (huniq : (qaFields blk).length = 1) :
    q.correct_answers_no = (q.answers.filter (fun a => a.correct)).length := by
  simp only [md_to_json] at hq
  split at hq
  next e hc => exact absurd hq (by simp)
  next hc => exact (fieldsLoop_unique_qa _ _ q hq huniq rfl).2.1.symm

/-- C5, witness: the single-section block parses with `correct_answers_no`
equal to its number of `+`-lines. -/
theorem C5_witness :
    (1 : Nat) = (([⟨str "a", true, invRat 1⟩, ⟨str "b", false, 0⟩] : List Answer).filter
      (fun a => a.correct)).length :=
  C5_correct_count_amended
    (str "# W5\n## Question Text\nx\n## Question Answers\n+ a\n- b")
    ⟨str "W5", str "x\n", str "", [], [⟨str "a", true, invRat 1⟩, ⟨str "b", false, 0⟩], 1⟩
    (by decide) (by decide)

/-! ### Error classification (C3) -/

theorem countPlus_error : ∀ {lines : List Str} {e : PyError},
    countPlus lines = .error e → e = .indexError := by
  intro lines
  induction lines with
  | nil => intro e h; exact absurd h (by simp [countPlus])
  | cons l rest ih =>
    intro e h
    cases l with
    | nil =>
      simp only [countPlus, Except.error.injEq] at h
      exact h.symm
    | cons c cs =>
      unfold countPlus at h
      cases hcr : countPlus rest with
      | error e' =>
        rw [hcr] at h
        simp only [Except.error.injEq] at h
        subst h
        exact ih hcr
      | ok n => rw [hcr] at h; exact absurd h (by simp)

theorem ansLoop_error (n : Nat) (g : ℚ) : ∀ {lines : List Str} {acc : List Answer}
    {e : PyError}, ansLoop n g acc lines = .error e → e = .indexError := by
  intro lines
  induction lines with
  | nil => intro acc e h; exact absurd h (by simp [ansLoop])
  | cons l rest ih =>
    intro acc e h
    cases l with
    | nil =>
      simp only [ansLoop, Except.error.injEq] at h
      exact h.symm
    | cons c cs =>
      by_cases hp : c = '+'
      · subst hp
        rw [show ansLoop n g acc (('+' :: cs) :: rest) =
          ansLoop n g (acc ++ [⟨('+' :: cs).drop 2, true, g⟩]) rest by simp [ansLoop]] at h
        exact ih h
      · by_cases hm : c = '-'
        · subst hm
          rw [show ansLoop n g acc (('-' :: cs) :: rest) =
            ansLoop n g (acc ++ [⟨('-' :: cs).drop 2, false,
              if 1 < n then -g else 0⟩]) rest by simp [ansLoop]] at h
          exact ih h
        · rw [show ansLoop n g acc ((c :: cs) :: rest) = ansLoop n g acc rest by
            simp [ansLoop, hp, hm]] at h
          exact ih h

theorem metaLoop_error : ∀ (ms : List Str) (q : Question) {e : PyError},
    metaLoop q ms = .error e → e = .indexError := by
  intro ms
  induction ms with
  | nil => intro q e h; exact absurd h (by simp [metaLoop])
  | cons m rest ih =>
    intro q e h
    unfold metaLoop at h
    split at h
    next k v t heq => exact ih (set_meta q k v) h
    next =>
      simp only [Except.error.injEq] at h
      exact h.symm

theorem check_ne_zerodiv (s : Str) : check_md_q s ≠ .error .zeroDivisionError := by
  intro h
  simp only [check_md_q] at h
  split_ifs at h with h1 h2
  · simp at h
  · simp at h
  · split at h
    next => simp at h
    next f fs heq =>
      split at h
      next e heq2 =>
        simp only [Except.error.injEq] at h
        exact PyError.noConfusion (h ▸ countPlus_error heq2)
      next n heq2 =>
        split_ifs at h <;> simp at h

theorem processField_ne_zerodiv {q : Question} {f : Str}
    (hf : firstLine f = str "Question Answers" →
      ∃ n, countPlus ((splitSub [nl] (rstripNl f)).drop 1) = .ok n ∧ 1 ≤ n) :
    processField q f ≠ .error .zeroDivisionError := by
  intro h
  simp only [processField] at h
  split_ifs at h with h1 h2 h3 h4
  · obtain ⟨n, hcp, hn⟩ := hf h2
    simp only [procAnswers, hcp] at h
    rw [if_neg (by omega)] at h
    cases hal : ansLoop n (invRat n) q.answers ((splitSub [nl] (rstripNl f)).drop 1) with
    | error e =>
      rw [hal] at h
      simp only [Except.error.injEq] at h
      exact PyError.noConfusion (h ▸ ansLoop_error n (invRat n) hal)
    | ok answers => rw [hal] at h; exact absurd h (by simp)
  · exact PyError.noConfusion (metaLoop_error _ q h)

theorem fieldsLoop_ne_zerodiv :
    ∀ (fields : List Str) (q : Question),
      (∀ f ∈ fields, ∀ (q' : Question), processField q' f ≠ .error .zeroDivisionError) →
      fieldsLoop q fields ≠ .error .zeroDivisionError := by
  intro fields
  induction fields with
  | nil => intro q _ h; simp [fieldsLoop] at h
  | cons f rest ih =>
    intro q hall h
    unfold fieldsLoop at h
    cases hp : processField q f with
    | error e =>
      rw [hp] at h
      simp only [Except.error.injEq] at h
      subst h
      exact hall f (by simp) q hp
    | ok q1 =>
      rw [hp] at h
      exact ih q1 (fun a ha => hall a (by simp [ha])) h

theorem firstLine_eq_takeWhile : ∀ s : Str, firstLine s = s.takeWhile (fun c => c ≠ nl) := by
  intro s
  induction s with
  | nil => rfl
  | cons c rest ih =>
    by_cases hc : c = nl
    · subst hc
      unfold firstLine
      rw [splitSub_cons_pos nl rest (by simp) (by simp [List.isPrefixOf])]
      simp [List.takeWhile_cons]
    · unfold firstLine
      rw [splitSub_cons_neg c rest (by
        simp only [List.isPrefixOf, List.isPrefixOf_nil_left, Bool.and_true]
        simp only [beq_eq_false_iff_ne]
        exact Ne.symm hc)]
      cases hsp : splitSub [nl] rest with
      | nil => exact absurd hsp (splitSub_ne_nil [nl] rest)
      | cons x xs =>
        unfold firstLine at ih
        rw [hsp] at ih
        simp only [List.headD_cons, List.takeWhile_cons]
        rw [if_pos (by simp [hc])]
        simp only [List.headD_cons] at ih
        rw [ih]

theorem firstLine_isPrefixOf (s : Str) : (firstLine s).isPrefixOf s = true := by
  rw [firstLine_eq_takeWhile]
  exact List.isPrefixOf_iff_prefix.mpr (List.takeWhile_prefix _)

theorem check_qa_count {s : Str} (h : check_md_q s = .ok ()) {f : Str} {fs : List Str}
    (hf : (splitSub (str "## ") s).filter
      (fun x => (str "Question Answers").isPrefixOf x) = f :: fs) :
    ∃ n, countPlus ((splitSub [nl] (rstripNl f)).drop 1) = .ok n ∧ 1 ≤ n := by
  simp only [check_md_q] at h
  split_ifs at h with h1 h2
  split at h
  next heq => rw [hf] at heq; exact absurd heq (by simp)
  next f' fs' heq =>
      rw [hf] at heq
      obtain ⟨rfl, rfl⟩ : f = f' ∧ fs = fs' := by
        injection heq with e1 e2
        exact ⟨e1, e2⟩
      split at h
      next e heq2 => exact absurd h (by simp)
      next n heq2 =>
        split_ifs at h with h3
        exact ⟨n, heq2, by omega⟩

/-- C3 (amended): `md_to_json` cannot raise `ZeroDivisionError` on a block in
which at most one `'## '`-field of the normalized form starts with
`'Question Answers'` and any such field is named exactly `'Question
Answers'`: `check_md_q` runs before the grade computation and guarantees
that this single answer section counts at least one `'+'` line.  (Without
the hypothesis the division is reachable, see the counterexample: the
validator inspects only the first `startswith`-matching field.) -/
theorem C3_no_div_by_zero_amended (blk : Str)
    (h1 : (qaHeadFields blk).length ≤ 1)
    (h2 : ∀ f ∈ qaHeadFields blk, firstLine f = str "Question Answers") :
    md_to_json blk ≠ .error .zeroDivisionError := by
  intro hbad
  simp only [md_to_json] at hbad
  split at hbad
  next e hc =>
    simp only [Except.error.injEq] at hbad
    subst hbad
    exact check_ne_zerodiv _ hc
  next hc =>
    refine fieldsLoop_ne_zerodiv _ _ ?_ hbad
    intro f hf q'
    apply processField_ne_zerodiv
    intro hname
    have hpre : (str "Question Answers").isPrefixOf f = true := by
      rw [← hname]
      exact firstLine_isPrefixOf f
    have hmem : f ∈ qaHeadFields blk := List.mem_filter.mpr ⟨hf, hpre⟩
    obtain ⟨f₁, fs₁, hffs⟩ : ∃ a l, qaHeadFields blk = a :: l := by
      cases hqf : qaHeadFields blk with
      | nil => rw [hqf] at hmem; simp at hmem
      | cons a l => exact ⟨a, l, rfl⟩
    have hfs₁ : fs₁ = [] := by
      rw [hffs] at h1
      simp only [List.length_cons] at h1
      exact List.length_eq_zero.mp (by omega)
    have hf₁ : f = f₁ := by
      rw [hffs, hfs₁] at hmem
      simpa using hmem
    subst hf₁
    exact check_qa_count hc (show (splitSub (str "## ") (normalizeMd blk)).filter
      (fun x => (str "Question Answers").isPrefixOf x) = f :: fs₁ from hffs)

/-- C3, witness: a well-formed single-answer-section block cannot trigger
the division by zero. -/
theorem C3_witness :
    md_to_json (str "# W3\n## Question Text\nx\n## Question Answers\n+ a") ≠
      .error .zeroDivisionError :=
  C3_no_div_by_zero_amended (str "# W3\n## Question Text\nx\n## Question Answers\n+ a")
    (by decide) (by decide)

/-! ### Round-trip (C1): serialization shape -/

theorem foldl_append_map {α : Type} (g : α → Str) :
    ∀ (l : List α) (init : Str),
      l.foldl (fun acc x => acc ++ g x) init = init ++ (l.map g).flatten := by
  intro l
  induction l with
  | nil => intro init; simp
  | cons x xs ih =>
    intro init
    simp only [List.foldl_cons, List.map_cons, List.flatten_cons, ih (init ++ g x)]
    simp [List.append_assoc]

theorem json_to_md_shape (q : Question) :
    json_to_md q = ((mdLines q).map (fun l => l ++ [nl, nl])).flatten ++ [nl] := by
  unfold json_to_md mdLines metaLines
  have hfa : (fun (md_q : Str) (answer : Answer) =>
      md_q ++ (if answer.correct then str "+" else str "-") ++ str " "
        ++ answer.statement ++ str "\n\n") =
      (fun (md_q : Str) (answer : Answer) =>
        md_q ++ ((if answer.correct then str "+" else str "-") ++ str " "
          ++ answer.statement ++ str "\n\n")) := by
    funext md_q a
    simp [List.append_assoc]
  have hfm : (fun (md_q : Str) (p : Str × List Str) =>
      md_q ++ p.1 ++ str "=" ++ metaStr (get_meta q p.1) ++ str "\n\n") =
      (fun (md_q : Str) (p : Str × List Str) =>
        md_q ++ (p.1 ++ str "=" ++ metaStr (get_meta q p.1) ++ str "\n\n")) := by
    funext md_q p
    simp [List.append_assoc]
  rw [hfa, hfm]
  rw [foldl_append_map (fun (answer : Answer) =>
    (if answer.correct then str "+" else str "-") ++ str " " ++ answer.statement ++ str "\n\n")
    q.answers []]
  rw [foldl_append_map (fun (p : Str × List Str) =>
    p.1 ++ str "=" ++ metaStr (get_meta q p.1) ++ str "\n\n") q.metadata []]
  simp only [List.map_append, List.map_cons, List.flatten_append, List.flatten_cons,
    List.map_map, List.nil_append]
  have e2 : str "\n\n" = [nl, nl] := rfl
  have eQT : str "## Question Text\n\n" = str "## Question Text" ++ [nl, nl] := rfl
  have eQA : str "## Question Answers\n\n" = str "## Question Answers" ++ [nl, nl] := rfl
  have eFB : str "## Feedback\n\n" = str "## Feedback" ++ [nl, nl] := rfl
  have eMD : str "## Metadata\n\n" = str "## Metadata" ++ [nl, nl] := rfl
  have e1 : str "\n" = [nl] := rfl
  rw [e2, eQT, eQA, eFB, eMD, e1]
  have hga : (fun (answer : Answer) =>
      (if answer.correct then str "+" else str "-") ++ str " " ++ answer.statement ++ [nl, nl]) =
      (fun a => ansLine a ++ [nl, nl]) := by
    funext a
    simp [ansLine, List.append_assoc]
  have hgm : (fun (p : Str × List Str) => p.1 ++ str "=" ++ metaStr (get_meta q p.1) ++ [nl, nl]) =
      ((fun l => l ++ [nl, nl]) ∘ metaLine q) := by
    funext p
    simp [metaLine, Function.comp, List.append_assoc]
  rw [hga, hgm]
  simp [Function.comp_def, List.append_assoc]

theorem isPrefixOf_cons_ne {a b : Char} (h : a ≠ b) (s t : Str) :
    List.isPrefixOf (a :: s) (b :: t) = false := by
  simp [List.isPrefixOf, h]

theorem isPrefixOf_append_same (x : Str) : ∀ s t : Str,
    List.isPrefixOf (x ++ s) (x ++ t) = List.isPrefixOf s t := by
  induction x with
  | nil => intro s t; rfl
  | cons c x' ih =>
    intro s t
    simp [List.isPrefixOf, ih s t]

theorem isPrefixOf_nl_boundary :
    ∀ (sep : Str), nl ∉ sep → ∀ x y : Str,
      sep.isPrefixOf (x ++ nl :: y) = sep.isPrefixOf x := by
  intro sep
  induction sep with
  | nil => intro _ x y; simp [List.isPrefixOf]
  | cons s sep' ih =>
    intro hsep x y
    simp only [List.mem_cons, not_or] at hsep
    cases x with
    | nil =>
      simp only [List.nil_append, List.isPrefixOf]
      rw [beq_eq_false_iff_ne.mpr (fun e => hsep.1 e.symm)]
      simp
    | cons c x' =>
      simp only [List.cons_append, List.isPrefixOf, List.append_eq]
      rw [ih hsep.2 x' y]

theorem hasSub_nl_boundary {sep : Str} (hnl : nl ∉ sep) (hne : sep ≠ []) :
    ∀ x y : Str, hasSub sep (x ++ nl :: y) = (hasSub sep x || hasSub sep y) := by
  intro x
  induction x with
  | nil =>
    intro y
    simp only [List.nil_append, hasSub]
    rw [show sep.isPrefixOf (nl :: y) = sep.isPrefixOf ([] ++ nl :: y) from rfl,
      isPrefixOf_nl_boundary sep hnl [] y]
    cases sep with
    | nil => exact absurd rfl hne
    | cons s sep' => simp [List.isPrefixOf, hasSub, List.isEmpty]
  | cons c x' ih =>
    intro y
    have hp : sep.isPrefixOf (c :: (x' ++ nl :: y)) = sep.isPrefixOf (c :: x') :=
      isPrefixOf_nl_boundary sep hnl (c :: x') y
    simp only [List.cons_append, hasSub, List.append_eq]
    rw [hp, ih y]
    simp [Bool.or_assoc]

theorem hasSub_append_nl {sep : Str} (hnl : nl ∉ sep) (hne : sep ≠ []) (x : Str) :
    hasSub sep (x ++ [nl]) = hasSub sep x := by
  rw [show (x ++ [nl] : Str) = x ++ nl :: [] from rfl, hasSub_nl_boundary hnl hne x []]
  cases sep with
  | nil => exact absurd rfl hne
  | cons s sep' => simp [hasSub, List.isEmpty]

theorem hasSub_joinSep_nl {sep : Str} (hnl : nl ∉ sep) (hne : sep ≠ []) :
    ∀ {parts : List Str}, (∀ p ∈ parts, hasSub sep p = false) →
      hasSub sep (joinSep [nl] parts) = false := by
  intro parts
  induction parts with
  | nil =>
    intro _
    cases sep with
    | nil => exact absurd rfl hne
    | cons s sep' => simp [joinSep, hasSub, List.isEmpty]
  | cons p rest ih =>
    intro h
    cases rest with
    | nil => simpa [joinSep] using h p (by simp)
    | cons q rest' =>
      rw [joinSep_cons _ _ (by simp)]
      rw [show (p ++ [nl] ++ joinSep [nl] (q :: rest') : Str) =
        p ++ nl :: joinSep [nl] (q :: rest') by simp]
      rw [hasSub_nl_boundary hnl hne, h p (by simp),
        ih (fun r hr => h r (by simp [hr]))]
      rfl

theorem joinSep_append (sep : Str) :
    ∀ {xs ys : List Str}, xs ≠ [] → ys ≠ [] →
      joinSep sep (xs ++ ys) = joinSep sep xs ++ sep ++ joinSep sep ys := by
  intro xs
  induction xs with
  | nil => intro _ h _; exact absurd rfl h
  | cons x xs' ih =>
    intro ys _ hys
    cases xs' with
    | nil =>
      rw [show ([x] ++ ys : List Str) = x :: ys from rfl, joinSep_cons sep x hys]
      simp [joinSep]
    | cons x2 xs'' =>
      rw [show ((x :: x2 :: xs'') ++ ys : List Str) = x :: ((x2 :: xs'') ++ ys) from rfl]
      rw [joinSep_cons sep x (by simp), ih (by simp) hys, joinSep_cons sep x (by simp)]
      simp [List.append_assoc]

theorem ansLine_eq (a : Answer) :
    ansLine a = (if a.correct then '+' else '-') :: ' ' :: a.statement := by
  cases h : a.correct <;> simp [ansLine, h, str] <;> rfl

theorem ansLine_ne_nil (a : Answer) : ansLine a ≠ [] := by
  rw [ansLine_eq]; simp

theorem nl_not_mem_ansLine {a : Answer} (h : nl ∉ a.statement) : nl ∉ ansLine a := by
  rw [ansLine_eq]
  intro hmem
  rcases List.mem_cons.mp hmem with e | hmem2
  · revert e; cases hc : a.correct <;> simp [hc] <;> decide
  · rcases List.mem_cons.mp hmem2 with e | hmem3
    · exact absurd e (by decide)
    · exact h hmem3

theorem isPrefixOf_hash_ne {m : Char} (hm : '#' ≠ m) (t : Str) :
    (str "## ").isPrefixOf (m :: t) = false :=
  isPrefixOf_cons_ne hm _ t

theorem isPrefixOf_hash_second {m : Char} (hm : '#' ≠ m) (t : Str) :
    (str "## ").isPrefixOf ('#' :: m :: t) = false := by
  show List.isPrefixOf ('#' :: '#' :: [' ']) ('#' :: m :: t) = false
  simp only [List.isPrefixOf, beq_self_eq_true, Bool.true_and]
  exact isPrefixOf_cons_ne hm [' '] t

theorem hasSub_hash_ansLine {a : Answer} (h : hasSub (str "## ") a.statement = false) :
    hasSub (str "## ") (ansLine a) = false := by
  rw [ansLine_eq]
  simp only [hasSub]
  rw [h, isPrefixOf_hash_ne (m := ' ') (by decide),
    isPrefixOf_hash_ne (by cases hc : a.correct <;> simp [hc] <;> decide)]
  rfl

theorem hasSub_hash_title {n : Str} (h : hasSub (str "## ") n = false) :
    hasSub (str "## ") (str "# " ++ n) = false := by
  show hasSub (str "## ") ('#' :: ' ' :: n) = false
  simp only [hasSub]
  rw [h, isPrefixOf_hash_second (by decide) n, isPrefixOf_hash_ne (by decide) n]
  rfl

theorem metaLine_eq (q : Question) (p : Str × List Str) :
    metaLine q p = p.1 ++ '=' :: metaStr (get_meta q p.1) := by
  show p.1 ++ str "=" ++ metaStr (get_meta q p.1) = _
  rw [show (str "=" : Str) = ['='] from rfl, List.append_assoc, List.singleton_append]

theorem metaLine_ne_nil (q : Question) (p : Str × List Str) : metaLine q p ≠ [] := by
  rw [metaLine_eq]; simp

theorem eq_mem_metaLine (q : Question) (p : Str × List Str) : '=' ∈ metaLine q p := by
  rw [metaLine_eq]; simp

theorem splitSub_char_mem {c : Char} : ∀ {m : Str}, c ∈ m →
    ∃ k v t, splitSub [c] m = k :: v :: t := by
  intro m
  induction m with
  | nil => intro h; exact absurd h (List.not_mem_nil c)
  | cons a m' ih =>
    intro h
    by_cases hac : a = c
    · subst hac
      obtain ⟨v, t, hvt⟩ : ∃ v t, splitSub [a] m' = v :: t := by
        cases hsp : splitSub [a] m' with
        | nil => exact absurd hsp (splitSub_ne_nil _ _)
        | cons v t => exact ⟨v, t, rfl⟩
      refine ⟨[], v, t, ?_⟩
      rw [splitSub_cons_pos a m' (by simp) (by simp [List.isPrefixOf])]
      simp only [List.length_cons, List.length_nil, List.drop_succ_cons, List.drop_zero]
      rw [hvt]
    · have hm' : c ∈ m' := by
        rcases List.mem_cons.mp h with e | hm
        · exact absurd e.symm hac
        · exact hm
      obtain ⟨k, v, t, hkvt⟩ := ih hm'
      refine ⟨a :: k, v, t, ?_⟩
      have hpre : List.isPrefixOf [c] (a :: m') = false := by
        simp only [List.isPrefixOf, List.isPrefixOf_nil_left, Bool.and_true]
        exact beq_eq_false_iff_ne.mpr (fun e => hac e.symm)
      rw [splitSub_cons_neg a m' hpre, hkvt]

theorem metaLoop_ok :
    ∀ (lines : List Str) (q : Question), (∀ m ∈ lines, '=' ∈ m) →
      ∃ md, metaLoop q lines = .ok { q with metadata := md } := by
  intro lines
  induction lines with
  | nil => intro q _; exact ⟨q.metadata, rfl⟩
  | cons m rest ih =>
    intro q h
    obtain ⟨k, v, t, hkvt⟩ := splitSub_char_mem (h m (by simp))
    obtain ⟨md, hmd⟩ := ih (set_meta q k v) (fun m' hm' => h m' (by simp [hm']))
    refine ⟨md, ?_⟩
    unfold metaLoop
    rw [hkvt]
    exact hmd

theorem countPlus_ansLines : ∀ answers : List Answer,
    countPlus (answers.map ansLine) = .ok (answers.filter (fun a => a.correct)).length := by
  intro answers
  induction answers with
  | nil => rfl
  | cons a rest ih =>
    rw [List.map_cons, ansLine_eq]
    show countPlus (((if a.correct then '+' else '-') :: ' ' :: a.statement) :: _) = _
    unfold countPlus
    rw [ih]
    rw [List.filter_cons]
    cases hc : a.correct <;> simp [hc]

theorem ansLoop_ansLines (n : Nat) : ∀ (answers acc : List Answer),
    (∀ a ∈ answers, a.grade =
      if a.correct then invRat n else if 1 < n then -invRat n else 0) →
    ansLoop n (invRat n) acc (answers.map ansLine) = .ok (acc ++ answers) := by
  intro answers
  induction answers with
  | nil => intro acc _; simp [ansLoop]
  | cons a rest ih =>
    intro acc h
    rw [List.map_cons, ansLine_eq]
    have hg := h a (by simp)
    cases hc : a.correct
    · rw [hc] at hg
      simp only [Bool.false_eq_true, if_false] at hg
      show ansLoop n (invRat n) acc (('-' :: ' ' :: a.statement) :: _) = _
      unfold ansLoop
      rw [if_neg (by decide), if_pos rfl]
      simp only [List.drop_succ_cons, List.drop_zero]
      have he : (⟨a.statement, false, if 1 < n then -invRat n else 0⟩ : Answer) = a := by
        obtain ⟨s, c, g⟩ := a
        simp only at hc hg
        simp [Answer.mk.injEq, hc, hg]
      rw [he, ih (acc ++ [a]) (fun a' ha' => h a' (by simp [ha']))]
      simp
    · rw [hc] at hg
      simp only [if_pos rfl] at hg
      show ansLoop n (invRat n) acc (('+' :: ' ' :: a.statement) :: _) = _
      unfold ansLoop
      rw [if_pos rfl]
      simp only [List.drop_succ_cons, List.drop_zero]
      have he : (⟨a.statement, true, invRat n⟩ : Answer) = a := by
        obtain ⟨s, c, g⟩ := a
        simp only at hc hg
        simp [Answer.mk.injEq, hc, hg]
      rw [he, ih (acc ++ [a]) (fun a' ha' => h a' (by simp [ha']))]
      simp

theorem mem_of_getLast? {α : Type} : ∀ {l : List α} {c : α}, l.getLast? = some c → c ∈ l := by
  intro l c h
  cases l with
  | nil => exact Option.noConfusion h
  | cons a t =>
    rw [List.getLast?_eq_getLast_of_ne_nil (by simp)] at h
    have e : (a :: t).getLast (by simp) = c := Option.some.inj h
    exact e ▸ List.getLast_mem (by simp)

theorem getLast?_joinSep_nl {parts : List Str} {lst : Str}
    (h : parts.getLast? = some lst) (hne : lst ≠ []) :
    (joinSep [nl] parts).getLast? = lst.getLast? := by
  cases parts with
  | nil => exact absurd h (by simp)
  | cons p parts' =>
    rw [joinSep_nl_eq_flat parts' p]
    cases parts' with
    | nil =>
      simp only [List.getLast?_singleton, Option.some.injEq] at h
      subst h
      simp
    | cons m parts'' =>
      rw [List.getLast?_cons_cons] at h
      rw [List.getLast?_append_of_ne_nil _ (flatten_map_nl_ne_nil (by simp))]
      exact getLast?_nlJoin _ lst h hne

theorem nl_not_mem_mdLines (r : Question)
    (hname : nl ∉ r.name) (hstmt : nl ∉ r.statement) (hfb : nl ∉ r.feedback)
    (hael : ∀ a ∈ r.answers, nl ∉ a.statement)
    (hmeta : ∀ m ∈ metaLines r, nl ∉ m) :
    ∀ l ∈ mdLines r, nl ∉ l := by
  intro l hl
  unfold mdLines at hl
  have hl' : l ∈ ([str "# " ++ r.name, str "## Question Text", r.statement,
      str "## Question Answers"] : List Str) ∨ l ∈ r.answers.map ansLine ∨
      l ∈ ([str "## Feedback", r.feedback, str "## Metadata"] : List Str) ∨
      l ∈ metaLines r := by
    rcases List.mem_append.mp hl with h | h
    · rcases List.mem_append.mp h with h | h
      · rcases List.mem_append.mp h with h | h
        · exact Or.inl h
        · exact Or.inr (Or.inl h)
      · exact Or.inr (Or.inr (Or.inl h))
    · exact Or.inr (Or.inr (Or.inr h))
  rcases hl' with h | h | h | h
  · simp only [List.mem_cons, List.not_mem_nil, or_false] at h
    rcases h with rfl | rfl | rfl | rfl
    · intro hmem
      rcases List.mem_append.mp hmem with h1 | h1
      · exact absurd h1 (by decide)
      · exact hname h1
    · decide
    · exact hstmt
    · decide
  · obtain ⟨a, ha, rfl⟩ := List.mem_map.mp h
    exact nl_not_mem_ansLine (hael a ha)
  · simp only [List.mem_cons, List.not_mem_nil, or_false] at h
    rcases h with rfl | rfl | rfl
    · decide
    · exact hfb
    · decide
  · exact hmeta l h

theorem mdLines_getLast?_nil (r : Question) (hM : metaLines r = []) :
    (mdLines r).getLast? = some (str "## Metadata") := by
  unfold mdLines
  rw [hM, List.append_nil]
  rw [List.getLast?_append_of_ne_nil _ (by simp)]
  rw [List.getLast?_cons_cons, List.getLast?_cons_cons, List.getLast?_singleton]

theorem mdLines_getLast?_meta (r : Question) (hM : metaLines r ≠ []) :
    (mdLines r).getLast? = (metaLines r).getLast? := by
  unfold mdLines
  rw [List.getLast?_append_of_ne_nil _ hM]

theorem mdLines_filter (r : Question) :
    (mdLines r).filter (fun l => !l.isEmpty) =
      [str "# " ++ r.name] ++
      (str "## Question Text" :: (if r.statement.isEmpty then [] else [r.statement])) ++
      (str "## Question Answers" :: r.answers.map ansLine) ++
      (str "## Feedback" :: (if r.feedback.isEmpty then [] else [r.feedback])) ++
      (str "## Metadata" :: metaLines r) := by
  have hAns : List.filter (fun l => !l.isEmpty) (r.answers.map ansLine) = r.answers.map ansLine :=
    List.filter_eq_self.mpr (fun l hl => by
      obtain ⟨a, -, rfl⟩ := List.mem_map.mp hl
      rw [ansLine_eq]
      rfl)
  have hMeta : List.filter (fun l => !l.isEmpty) (metaLines r) = metaLines r :=
    List.filter_eq_self.mpr (fun l hl => by
      obtain ⟨p, -, rfl⟩ := List.mem_map.mp hl
      rw [metaLine_eq]
      cases hp : p.1 <;> rfl)
  have e1 : (str "# " ++ r.name).isEmpty = false := rfl
  have e2 : (str "## Question Text").isEmpty = false := by decide
  have e3 : (str "## Question Answers").isEmpty = false := by decide
  have e4 : (str "## Feedback").isEmpty = false := by decide
  have e5 : (str "## Metadata").isEmpty = false := by decide
  by_cases hs : r.statement.isEmpty <;> by_cases hf : r.feedback.isEmpty <;>
    simp [mdLines, List.filter_append, List.filter_cons, hAns, hMeta, hs, hf,
      e1, e2, e3, e4, e5]

theorem normalizeMd_json_to_md (r : Question) (hans : r.answers ≠ [])
    (hname : nl ∉ r.name) (hstmt : nl ∉ r.statement) (hfb : nl ∉ r.feedback)
    (hael : ∀ a ∈ r.answers, nl ∉ a.statement)
    (hmetaNl : ∀ m ∈ metaLines r, nl ∉ m)
    (hmetaWs : ∀ m ∈ metaLines r, ∀ c, m.getLast? = some c → pyIsSpace c = false) :
    normalizeMd (json_to_md r) = joinSep (str "## ") (mdFields r) := by
  rw [json_to_md_shape]
  have hnlAll : ∀ l ∈ mdLines r, nl ∉ l := nl_not_mem_mdLines r hname hstmt hfb hael hmetaNl
  have hlast : ∀ l, (mdLines r).getLast? = some l →
      l ≠ [] ∧ ∀ c, l.getLast? = some c → pyIsSpace c = false := by
    intro l hl
    cases hM : metaLines r with
    | nil =>
      rw [mdLines_getLast?_nil r hM] at hl
      obtain rfl := Option.some.inj hl
      refine ⟨by decide, ?_⟩
      intro c hc
      rw [show (str "## Metadata").getLast? = some 'a' from rfl] at hc
      obtain rfl := Option.some.inj hc
      decide
    | cons m M' =>
      rw [mdLines_getLast?_meta r (by rw [hM]; simp), hM] at hl
      have hmem : l ∈ metaLines r := by
        rw [hM]
        exact mem_of_getLast? hl
      obtain ⟨p, -, hp⟩ := List.mem_map.mp hmem
      refine ⟨hp ▸ metaLine_ne_nil r p, hmetaWs l hmem⟩
  have hcons : mdLines r = (str "# " ++ r.name) ::
      ((([str "## Question Text", r.statement, str "## Question Answers"] ++
        r.answers.map ansLine) ++ [str "## Feedback", r.feedback, str "## Metadata"]) ++
        metaLines r) := rfl
  rw [hcons]
  rw [@normalizeMd_doc (str "# " ++ r.name)
    ([str "## Question Text", r.statement, str "## Question Answers"] ++
      r.answers.map ansLine ++ [str "## Feedback", r.feedback, str "## Metadata"] ++
      metaLines r)
    (show ('#' :: ' ' :: r.name : Str) ≠ [] by simp)
    (fun l hl => hnlAll l hl)
    (fun l hl => (hlast l hl).1)
    (fun l c hl => (hlast l hl).2 c)]
  rw [← hcons, mdLines_filter]
  have eqQT : (str "## Question Text" : Str) = str "## " ++ str "Question Text" := rfl
  have eqQA : (str "## Question Answers" : Str) = str "## " ++ str "Question Answers" := rfl
  have eqFB : (str "## Feedback" : Str) = str "## " ++ str "Feedback" := rfl
  have eqMD : (str "## Metadata" : Str) = str "## " ++ str "Metadata" := rfl
  have hmapne : r.answers.map ansLine ≠ [] := by simpa using hans
  unfold mdFields mdF0 mdF1 mdF2 mdF3 mdF4
  by_cases hs : r.statement.isEmpty <;> by_cases hf : r.feedback.isEmpty <;>
    rcases hM : metaLines r with _ | ⟨m, M'⟩ <;>
    simp [hs, hf, hM, joinSep_append, joinSep_cons, joinSep, eqQT, eqQA, eqFB, eqMD,
      hmapne, List.append_assoc]

theorem hasSub_mdF0 {r : Question} (h : hasSub (str "## ") r.name = false) :
    hasSub (str "## ") (mdF0 r) = false := by
  unfold mdF0
  rw [hasSub_append_nl (by decide) (by decide)]
  exact hasSub_hash_title h

theorem hasSub_mdF1 {r : Question} (h : hasSub (str "## ") r.statement = false) :
    hasSub (str "## ") (mdF1 r) = false := by
  unfold mdF1
  by_cases hs : r.statement.isEmpty
  · rw [if_pos hs, List.append_nil, hasSub_append_nl (by decide) (by decide)]
    decide
  · rw [if_neg hs]
    rw [show (str "Question Text" ++ [nl] ++ (r.statement ++ [nl]) : Str) =
      str "Question Text" ++ nl :: (r.statement ++ [nl]) by simp]
    rw [hasSub_nl_boundary (by decide) (by decide),
      hasSub_append_nl (by decide) (by decide), h,
      (by decide : hasSub (str "## ") (str "Question Text") = false)]
    rfl

theorem hasSub_mdF2 {r : Question}
    (h : ∀ a ∈ r.answers, hasSub (str "## ") a.statement = false) :
    hasSub (str "## ") (mdF2 r) = false := by
  unfold mdF2
  have hJ : hasSub (str "## ") (joinSep [nl] (r.answers.map ansLine)) = false :=
    hasSub_joinSep_nl (by decide) (by decide) (fun l hl => by
      obtain ⟨a, ha, rfl⟩ := List.mem_map.mp hl
      exact hasSub_hash_ansLine (h a ha))
  rw [hasSub_append_nl (by decide) (by decide)]
  rw [show (str "Question Answers" ++ [nl] ++ joinSep [nl] (r.answers.map ansLine) : Str) =
    str "Question Answers" ++ nl :: joinSep [nl] (r.answers.map ansLine) by simp]
  rw [hasSub_nl_boundary (by decide) (by decide), hJ,
    (by decide : hasSub (str "## ") (str "Question Answers") = false)]
  rfl

theorem hasSub_mdF3 {r : Question} (h : hasSub (str "## ") r.feedback = false) :
    hasSub (str "## ") (mdF3 r) = false := by
  unfold mdF3
  by_cases hf : r.feedback.isEmpty
  · rw [if_pos hf, List.append_nil, hasSub_append_nl (by decide) (by decide)]
    decide
  · rw [if_neg hf]
    rw [show (str "Feedback" ++ [nl] ++ (r.feedback ++ [nl]) : Str) =
      str "Feedback" ++ nl :: (r.feedback ++ [nl]) by simp]
    rw [hasSub_nl_boundary (by decide) (by decide),
      hasSub_append_nl (by decide) (by decide), h,
      (by decide : hasSub (str "## ") (str "Feedback") = false)]
    rfl

theorem hasSub_mdF4 {r : Question}
    (h : ∀ m ∈ metaLines r, hasSub (str "## ") m = false) :
    hasSub (str "## ") (mdF4 r) = false := by
  unfold mdF4
  by_cases hm : (metaLines r).isEmpty
  · rw [if_pos hm, List.append_nil]
    decide
  · rw [if_neg hm]
    have hJ : hasSub (str "## ") (joinSep [nl] (metaLines r)) = false :=
      hasSub_joinSep_nl (by decide) (by decide) h
    rw [show (str "Metadata" ++ ([nl] ++ joinSep [nl] (metaLines r)) : Str) =
      str "Metadata" ++ nl :: joinSep [nl] (metaLines r) by simp]
    rw [hasSub_nl_boundary (by decide) (by decide), hJ,
      (by decide : hasSub (str "## ") (str "Metadata") = false)]
    rfl

theorem splitSub_mdFields (r : Question)
    (hname : hasSub (str "## ") r.name = false)
    (hstmt : hasSub (str "## ") r.statement = false)
    (hfb : hasSub (str "## ") r.feedback = false)
    (hael : ∀ a ∈ r.answers, hasSub (str "## ") a.statement = false)
    (hmeta : ∀ m ∈ metaLines r, hasSub (str "## ") m = false) :
    splitSub (str "## ") (joinSep (str "## ") (mdFields r)) = mdFields r := by
  refine splitSub_joinSep_hash ?_ (by simp [mdFields])
  intro p hp
  simp only [mdFields, List.mem_cons, List.not_mem_nil, or_false] at hp
  rcases hp with rfl | rfl | rfl | rfl | rfl
  · exact hasSub_mdF0 hname
  · exact hasSub_mdF1 hstmt
  · exact hasSub_mdF2 hael
  · exact hasSub_mdF3 hfb
  · exact hasSub_mdF4 hmeta

theorem firstLine_mdF0 {r : Question} (hname : nl ∉ r.name) :
    firstLine (mdF0 r) = str "# " ++ r.name :=
  firstLine_append (fun hm => by
    rcases List.mem_append.mp hm with h1 | h1
    · exact absurd h1 (by decide)
    · exact hname h1)

theorem firstLine_mdF1 (r : Question) : firstLine (mdF1 r) = str "Question Text" := by
  unfold mdF1
  by_cases hs : r.statement.isEmpty
  · rw [if_pos hs, List.append_nil]
    exact firstLine_append (by decide)
  · rw [if_neg hs]
    rw [show (str "Question Text" ++ [nl] ++ (r.statement ++ [nl]) : Str) =
      str "Question Text" ++ nl :: (r.statement ++ [nl]) by simp]
    exact firstLine_append (by decide)

theorem firstLine_mdF2 (r : Question) : firstLine (mdF2 r) = str "Question Answers" := by
  unfold mdF2
  rw [show (str "Question Answers" ++ [nl] ++ joinSep [nl] (r.answers.map ansLine) ++ [nl] : Str) =
    str "Question Answers" ++ nl :: (joinSep [nl] (r.answers.map ansLine) ++ [nl]) by simp]
  exact firstLine_append (by decide)

theorem firstLine_mdF3 (r : Question) : firstLine (mdF3 r) = str "Feedback" := by
  unfold mdF3
  by_cases hf : r.feedback.isEmpty
  · rw [if_pos hf, List.append_nil]
    exact firstLine_append (by decide)
  · rw [if_neg hf]
    rw [show (str "Feedback" ++ [nl] ++ (r.feedback ++ [nl]) : Str) =
      str "Feedback" ++ nl :: (r.feedback ++ [nl]) by simp]
    exact firstLine_append (by decide)

theorem firstLine_mdF4 (r : Question) : firstLine (mdF4 r) = str "Metadata" := by
  unfold mdF4
  by_cases hm : (metaLines r).isEmpty
  · rw [if_pos hm, List.append_nil]
    exact firstLine_no_nl (by decide)
  · rw [if_neg hm]
    exact firstLine_append (by decide)

theorem qaPrefix_mdF0 (r : Question) :
    (str "Question Answers").isPrefixOf (mdF0 r) = false :=
  isPrefixOf_cons_ne (by decide) _ _

theorem qaPrefix_mdF1 (r : Question) :
    (str "Question Answers").isPrefixOf (mdF1 r) = false := by
  have h1 : (str "Question Answers").isPrefixOf (mdF1 r) =
      (str "Answers").isPrefixOf ((str "Text" ++ [nl]) ++
        (if r.statement.isEmpty then [] else r.statement ++ [nl])) :=
    isPrefixOf_append_same (str "Question ") _ _
  rw [h1]
  exact isPrefixOf_cons_ne (by decide) _ _

theorem qaPrefix_mdF2 (r : Question) :
    (str "Question Answers").isPrefixOf (mdF2 r) = true :=
  List.isPrefixOf_iff_prefix.mpr
    (show (str "Question Answers") <+: str "Question Answers" ++
      (([nl] ++ joinSep [nl] (r.answers.map ansLine)) ++ [nl]) from List.prefix_append _ _)

theorem qaPrefix_mdF3 (r : Question) :
    (str "Question Answers").isPrefixOf (mdF3 r) = false :=
  isPrefixOf_cons_ne (by decide) _ _

theorem qaPrefix_mdF4 (r : Question) :
    (str "Question Answers").isPrefixOf (mdF4 r) = false :=
  isPrefixOf_cons_ne (by decide) _ _

theorem getLast?_joinSep_nl_ne_nl : ∀ {parts : List Str}, parts ≠ [] →
    (∀ p ∈ parts, p ≠ []) → (∀ p ∈ parts, nl ∉ p) →
    ∀ c, (joinSep [nl] parts).getLast? = some c → c ≠ nl := by
  intro parts
  induction parts with
  | nil => intro h; exact absurd rfl h
  | cons p rest ih =>
    intro _ hne hnl c hc
    cases rest with
    | nil =>
      intro e
      subst e
      exact hnl p (by simp) (mem_of_getLast? hc)
    | cons q rest' =>
      rw [joinSep_cons _ _ (by simp)] at hc
      have hjoin_ne : joinSep [nl] (q :: rest') ≠ [] := by
        cases rest' with
        | nil => simpa [joinSep] using hne q (by simp)
        | cons w rest'' =>
          rw [joinSep_cons _ _ (by simp)]
          simp
      rw [List.getLast?_append_of_ne_nil _ hjoin_ne] at hc
      exact ih (by simp) (fun p hp => hne p (by simp [hp]))
        (fun p hp => hnl p (by simp [hp])) c hc

theorem joinSep_nl_ne_nil {parts : List Str} (hparts : parts ≠ [])
    (hne : ∀ p ∈ parts, p ≠ []) : joinSep [nl] parts ≠ [] := by
  cases parts with
  | nil => exact absurd rfl hparts
  | cons p rest =>
    cases rest with
    | nil => simpa [joinSep] using hne p (by simp)
    | cons q rest' =>
      rw [joinSep_cons _ _ (by simp)]
      simp

theorem qaLines_mdF2 (r : Question) (hans : r.answers ≠ [])
    (hnl : ∀ a ∈ r.answers, nl ∉ a.statement) :
    (splitSub [nl] (rstripNl (mdF2 r))).drop 1 = r.answers.map ansLine := by
  have hmapne : r.answers.map ansLine ≠ [] := by simpa using hans
  have hlinene : ∀ p ∈ r.answers.map ansLine, p ≠ [] := fun p hp => by
    obtain ⟨a, -, rfl⟩ := List.mem_map.mp hp
    exact ansLine_ne_nil a
  have hlinenl : ∀ p ∈ r.answers.map ansLine, nl ∉ p := fun p hp => by
    obtain ⟨a, ha, rfl⟩ := List.mem_map.mp hp
    exact nl_not_mem_ansLine (hnl a ha)
  have hJne : joinSep [nl] (r.answers.map ansLine) ≠ [] := joinSep_nl_ne_nil hmapne hlinene
  have hXlast : ∀ c, ((str "Question Answers" ++ [nl]) ++
      joinSep [nl] (r.answers.map ansLine)).getLast? = some c → c ≠ nl := by
    intro c hc
    rw [List.getLast?_append_of_ne_nil _ hJne] at hc
    exact getLast?_joinSep_nl_ne_nl hmapne hlinene hlinenl c hc
  unfold mdF2
  rw [rstripNl_append_nl hXlast]
  rw [splitSub_append (by simp) (sepOk_nl (by decide) _)]
  rw [splitSub_joinSep_nl hlinenl hmapne]
  rfl

theorem processField_mdF0 (q r : Question) (hname : nl ∉ r.name) :
    processField q (mdF0 r) = .ok q := by
  have h1 : str "# " ++ r.name ≠ str "Question Text" := fun e =>
    absurd (show (some '#' : Option Char) = some 'Q' from congrArg List.head? e) (by decide)
  have h2 : str "# " ++ r.name ≠ str "Question Answers" := fun e =>
    absurd (show (some '#' : Option Char) = some 'Q' from congrArg List.head? e) (by decide)
  have h3 : str "# " ++ r.name ≠ str "Feedback" := fun e =>
    absurd (show (some '#' : Option Char) = some 'F' from congrArg List.head? e) (by decide)
  have h4 : str "# " ++ r.name ≠ str "Metadata" := fun e =>
    absurd (show (some '#' : Option Char) = some 'M' from congrArg List.head? e) (by decide)
  simp only [processField]
  rw [firstLine_mdF0 hname, if_neg h1, if_neg h2, if_neg h3, if_neg h4]

theorem processField_mdF1 (q r : Question) (hstmt : nl ∉ r.statement) :
    processField q (mdF1 r) =
      .ok { q with statement := if r.statement.isEmpty then [] else r.statement ++ [nl] } := by
  simp only [processField]
  rw [firstLine_mdF1, if_pos rfl]
  by_cases hs : r.statement.isEmpty
  · have e : mdF1 r = (str "Question Text" ++ [nl]) ++ [] := by
      unfold mdF1
      rw [if_pos hs, List.append_nil]
    rw [e, splitSub_append (by simp) (sepOk_nl (by decide) []), if_pos hs]
    rfl
  · have e : mdF1 r = (str "Question Text" ++ [nl]) ++ (r.statement ++ [nl]) := by
      unfold mdF1
      rw [if_neg hs]
    have h2 : splitSub [nl] (r.statement ++ [nl]) = [r.statement, []] := by
      have h0 : splitSub [nl] (r.statement ++ [nl] ++ []) = r.statement :: splitSub [nl] [] :=
        splitSub_append (by simp) (sepOk_nl hstmt [])
      rw [List.append_nil] at h0
      exact h0
    rw [e, splitSub_append (by simp) (sepOk_nl (by decide) _), h2, if_neg hs]
    show Except.ok { q with statement := joinSep [nl] [r.statement, []] } = _
    rw [show joinSep [nl] [r.statement, []] = r.statement ++ [nl] ++ [] from rfl, List.append_nil]

theorem processField_mdF3 (q r : Question) (hfb : nl ∉ r.feedback) :
    processField q (mdF3 r) =
      .ok { q with feedback := if r.feedback.isEmpty then [] else r.feedback ++ [nl] } := by
  simp only [processField]
  rw [firstLine_mdF3, if_neg (by decide), if_neg (by decide), if_pos rfl]
  by_cases hf : r.feedback.isEmpty
  · have e : mdF3 r = (str "Feedback" ++ [nl]) ++ [] := by
      unfold mdF3
      rw [if_pos hf, List.append_nil]
    rw [e, splitSub_append (by simp) (sepOk_nl (by decide) []), if_pos hf]
    rfl
  · have e : mdF3 r = (str "Feedback" ++ [nl]) ++ (r.feedback ++ [nl]) := by
      unfold mdF3
      rw [if_neg hf]
    have h2 : splitSub [nl] (r.feedback ++ [nl]) = [r.feedback, []] := by
      have h0 : splitSub [nl] (r.feedback ++ [nl] ++ []) = r.feedback :: splitSub [nl] [] :=
        splitSub_append (by simp) (sepOk_nl hfb [])
      rw [List.append_nil] at h0
      exact h0
    rw [e, splitSub_append (by simp) (sepOk_nl (by decide) _), h2, if_neg hf]
    show Except.ok { q with feedback := joinSep [nl] [r.feedback, []] } = _
    rw [show joinSep [nl] [r.feedback, []] = r.feedback ++ [nl] ++ [] from rfl, List.append_nil]

theorem processField_mdF2 (q r : Question) (hans : r.answers ≠ [])
    (hnlans : ∀ a ∈ r.answers, nl ∉ a.statement) (hn : nCorrect r ≠ 0)
    (hg : ∀ a ∈ r.answers, a.grade = if a.correct then invRat (nCorrect r)
      else if 1 < nCorrect r then -invRat (nCorrect r) else 0) :
    processField q (mdF2 r) =
      .ok { q with correct_answers_no := nCorrect r, answers := q.answers ++ r.answers } := by
  simp only [processField]
  rw [firstLine_mdF2, if_neg (by decide), if_pos rfl]
  rw [qaLines_mdF2 r hans hnlans]
  unfold procAnswers
  rw [countPlus_ansLines,
    show ((r.answers.filter (fun a => a.correct)).length : Nat) = nCorrect r from rfl]
  show (if nCorrect r = 0 then (Except.error PyError.zeroDivisionError : Except PyError Question)
    else _) = _
  rw [if_neg hn, ansLoop_ansLines (nCorrect r) r.answers q.answers hg]

theorem processField_mdF4 (q r : Question)
    (hmetaNl : ∀ m ∈ metaLines r, nl ∉ m) :
    ∃ md, processField q (mdF4 r) = .ok { q with metadata := md } := by
  simp only [processField]
  rw [firstLine_mdF4, if_neg (by decide), if_neg (by decide), if_neg (by decide), if_pos rfl]
  by_cases hm : (metaLines r).isEmpty
  · have e : mdF4 r = str "Metadata" := by
      unfold mdF4
      rw [if_pos hm, List.append_nil]
    rw [e]
    rw [rstripNl_id (by
      intro c hc
      rw [show (str "Metadata").getLast? = some 'a' from rfl] at hc
      obtain rfl := Option.some.inj hc
      decide)]
    rw [splitSub_single (by simp) (by decide)]
    exact ⟨q.metadata, rfl⟩
  · have hMne : metaLines r ≠ [] := fun e => by rw [e] at hm; exact hm rfl
    have hlne : ∀ p ∈ metaLines r, p ≠ [] := fun p hp => by
      obtain ⟨pp, -, rfl⟩ := List.mem_map.mp hp
      exact metaLine_ne_nil r pp
    have hJne : joinSep [nl] (metaLines r) ≠ [] := joinSep_nl_ne_nil hMne hlne
    have e : mdF4 r = str "Metadata" ++ ([nl] ++ joinSep [nl] (metaLines r)) := by
      unfold mdF4
      rw [if_neg hm]
    rw [e]
    have hlastc : ∀ c, (str "Metadata" ++ ([nl] ++ joinSep [nl] (metaLines r))).getLast? =
        some c → c ≠ nl := by
      intro c hc
      rw [List.getLast?_append_of_ne_nil _ (by simp)] at hc
      rw [List.getLast?_append_of_ne_nil _ hJne] at hc
      exact getLast?_joinSep_nl_ne_nl hMne hlne hmetaNl c hc
    rw [rstripNl_id hlastc]
    rw [show (str "Metadata" ++ ([nl] ++ joinSep [nl] (metaLines r)) : Str) =
      (str "Metadata" ++ [nl]) ++ joinSep [nl] (metaLines r) by simp]
    rw [splitSub_append (by simp) (sepOk_nl (by decide) _)]
    rw [splitSub_joinSep_nl hmetaNl hMne]
    exact metaLoop_ok (metaLines r) q (fun m hm' => by
      obtain ⟨p, -, rfl⟩ := List.mem_map.mp hm'
      exact eq_mem_metaLine r p)

theorem firstLine_joinSep_mdFields (r : Question) (hnameNl : nl ∉ r.name) :
    firstLine (joinSep (str "## ") (mdFields r)) = str "# " ++ r.name := by
  have e : joinSep (str "## ") (mdFields r) =
      (str "# " ++ r.name) ++ nl :: (str "## " ++
        joinSep (str "## ") [mdF1 r, mdF2 r, mdF3 r, mdF4 r]) := by
    rw [show mdFields r = mdF0 r :: [mdF1 r, mdF2 r, mdF3 r, mdF4 r] from rfl,
      joinSep_cons _ _ (by simp)]
    unfold mdF0
    simp [List.append_assoc]
  rw [e]
  exact firstLine_append (fun hm => by
    rcases List.mem_append.mp hm with h1 | h1
    · exact absurd h1 (by decide)
    · exact hnameNl h1)

theorem check_md_q_mdFields (r : Question)
    (hnameNl : nl ∉ r.name)
    (hnameH : hasSub (str "## ") r.name = false)
    (hstmtH : hasSub (str "## ") r.statement = false)
    (hfbH : hasSub (str "## ") r.feedback = false)
    (hansH : ∀ a ∈ r.answers, hasSub (str "## ") a.statement = false)
    (hmetaH : ∀ m ∈ metaLines r, hasSub (str "## ") m = false)
    (hans : r.answers ≠ [])
    (hnlans : ∀ a ∈ r.answers, nl ∉ a.statement)
    (hn : 1 ≤ nCorrect r) :
    check_md_q (joinSep (str "## ") (mdFields r)) = .ok () := by
  have hsplitN := splitSub_mdFields r hnameH hstmtH hfbH hansH hmetaH
  have hfl : firstLine (joinSep (str "## ") (mdFields r)) = str "# " ++ r.name :=
    firstLine_joinSep_mdFields r hnameNl
  have hcount : countPlus ((splitSub [nl] (rstripNl (mdF2 r))).drop 1) = .ok (nCorrect r) := by
    rw [qaLines_mdF2 r hans hnlans, countPlus_ansLines]
    rfl
  have hfilter : (mdFields r).filter (fun s => (str "Question Answers").isPrefixOf s) =
      [mdF2 r] := by
    simp [mdFields, List.filter_cons, qaPrefix_mdF0, qaPrefix_mdF1, qaPrefix_mdF2,
      qaPrefix_mdF3, qaPrefix_mdF4]
  simp only [check_md_q]
  rw [hfl]
  have hpre : (str "# ").isPrefixOf (str "# " ++ r.name) = true :=
    List.isPrefixOf_iff_prefix.mpr (List.prefix_append _ _)
  rw [hpre, if_neg (by simp)]
  rw [hsplitN]
  rw [show (mdFields r).drop 1 = [mdF1 r, mdF2 r, mdF3 r, mdF4 r] from rfl]
  rw [List.map_cons, List.map_cons, List.map_cons, List.map_cons, List.map_nil,
    firstLine_mdF1, firstLine_mdF2, firstLine_mdF3, firstLine_mdF4]
  rw [if_neg (by decide)]
  rw [hfilter]
  simp only []
  rw [hcount]
  simp only []
  rw [if_neg (by omega : ¬ nCorrect r < 1)]

/-- C1 (amended): for a well-formed record — single-line fields free of the
`'## '` marker, metadata lines single-line, marker-free and not ending in
whitespace, at least one correct answer, and grades matching the §3 invariant
— parsing the serialized record succeeds and reproduces the name, the answers
(statement, correct flag and grade) and the correct-answer count exactly,
while statement and feedback gain one trailing newline when nonempty. -/
theorem C1_round_trip_amended (r : Question)
    (hnameNl : nl ∉ r.name) (hstmtNl : nl ∉ r.statement) (hfbNl : nl ∉ r.feedback)
    (hansNl : ∀ a ∈ r.answers, nl ∉ a.statement)
    (hnameH : hasSub (str "## ") r.name = false)
    (hstmtH : hasSub (str "## ") r.statement = false)
    (hfbH : hasSub (str "## ") r.feedback = false)
    (hansH : ∀ a ∈ r.answers, hasSub (str "## ") a.statement = false)
    (hmeta : ∀ m ∈ metaLines r, nl ∉ m ∧ hasSub (str "## ") m = false ∧
      ∀ c, m.getLast? = some c → pyIsSpace c = false)
    (hn : 1 ≤ nCorrect r)
    (hg : ∀ a ∈ r.answers, a.grade = if a.correct then 1 / (nCorrect r : ℚ)
      else if 1 < nCorrect r then -(1 / (nCorrect r : ℚ)) else 0) :
    ∃ q, md_to_json (json_to_md r) = .ok q ∧
      q.name = r.name ∧
      q.statement = (if r.statement = [] then [] else r.statement ++ [nl]) ∧
      q.feedback = (if r.feedback = [] then [] else r.feedback ++ [nl]) ∧
      q.answers = r.answers ∧
      q.correct_answers_no = nCorrect r := by
  have hans : r.answers ≠ [] := by
    intro e
    rw [show nCorrect r = (r.answers.filter (fun a => a.correct)).length from rfl, e] at hn
    simp at hn
  have hn0 : nCorrect r ≠ 0 := by omega
  have hginv : ∀ a ∈ r.answers, a.grade = if a.correct then invRat (nCorrect r)
      else if 1 < nCorrect r then -invRat (nCorrect r) else 0 := by
    intro a ha
    rw [hg a ha, invRat_eq_one_div _ hn0]
  have hnorm := normalizeMd_json_to_md r hans hnameNl hstmtNl hfbNl hansNl
    (fun m hm => (hmeta m hm).1) (fun m hm => (hmeta m hm).2.2)
  have hcheck := check_md_q_mdFields r hnameNl hnameH hstmtH hfbH hansH
    (fun m hm => (hmeta m hm).2.1) hans hansNl hn
  have hsplitN := splitSub_mdFields r hnameH hstmtH hfbH hansH (fun m hm => (hmeta m hm).2.1)
  have hfl : firstLine (joinSep (str "## ") (mdFields r)) = str "# " ++ r.name :=
    firstLine_joinSep_mdFields r hnameNl
  simp only [md_to_json]
  rw [hnorm, hcheck]
  simp only []
  rw [hfl, show (str "# " ++ r.name).drop 2 = r.name from rfl, hsplitN]
  rw [show mdFields r = [mdF0 r, mdF1 r, mdF2 r, mdF3 r, mdF4 r] from rfl]
  simp only [fieldsLoop]
  rw [processField_mdF0 _ r hnameNl]
  simp only []
  rw [processField_mdF1 _ r hstmtNl]
  simp only []
  rw [processField_mdF2 _ r hans hansNl hn0 hginv]
  simp only []
  rw [processField_mdF3 _ r hfbNl]
  simp only []
  obtain ⟨md, hmd⟩ := processField_mdF4
    ⟨r.name, (if r.statement.isEmpty then [] else r.statement ++ [nl]),
     (if r.feedback.isEmpty then [] else r.feedback ++ [nl]), ([] : List (Str × List Str)),
     [] ++ r.answers, nCorrect r⟩ r (fun m hm => (hmeta m hm).1)
  rw [hmd]
  simp only []
  refine ⟨_, rfl, rfl, ?_, ?_, rfl, rfl⟩
  · by_cases hs : r.statement = [] <;> simp [hs, List.isEmpty_iff]
  · by_cases hf : r.feedback = [] <;> simp [hf, List.isEmpty_iff]

theorem C1_round_trip_witness :
    ∃ q, md_to_json (json_to_md ⟨str "Q1", str "What is it?", str "Fine", [],
        [⟨str "Yes", true, 1⟩, ⟨str "No", false, 0⟩], 1⟩) = .ok q ∧
      q.name = str "Q1" ∧
      q.statement = (if (str "What is it?" : Str) = [] then [] else str "What is it?" ++ [nl]) ∧
      q.feedback = (if (str "Fine" : Str) = [] then [] else str "Fine" ++ [nl]) ∧
      q.answers = [⟨str "Yes", true, 1⟩, ⟨str "No", false, 0⟩] ∧
      q.correct_answers_no = nCorrect ⟨str "Q1", str "What is it?", str "Fine", [],
        [⟨str "Yes", true, 1⟩, ⟨str "No", false, 0⟩], 1⟩ :=
  C1_round_trip_amended
    ⟨str "Q1", str "What is it?", str "Fine", [],
      [⟨str "Yes", true, 1⟩, ⟨str "No", false, 0⟩], 1⟩
    (by decide) (by decide) (by decide) (by decide)
    (by decide) (by decide) (by decide) (by decide)
    (by simp [metaLines])
    (by decide)
    (by
      intro a ha
      rcases List.mem_cons.mp ha with rfl | ha2
      · simp [nCorrect]
      · rcases List.mem_cons.mp ha2 with rfl | h3
        · simp [nCorrect]
        · simp at h3)
